import Mathlib

/-!
Shallow embedding of the scrap-auth-unemi assignment pipeline
(src/assignment/manage-data.ts and src/assignment/index.ts, NDJSON variant):
the keyspace enumerator `generateSequences`, the retry ladder
`requestForKeyWithBackoff`, the rotating NDJSON writer
(`recoverStateFromDisk`, `rotate`, `needsRotate`, `appendBatch`), the
progress checkpoint `readProgressIndex`, and the batch scheduler loop of
`getUsersAssignment`, together with theorems settling the spec claims.

Modelling conventions:
* JSON values are the inductive `Json`; JSON numbers are modelled as `Int`
  (every number this program writes is an integer).  JavaScript `Number`
  coercion of arrays/objects is modelled as NaN (`none`), and string
  coercion handles optionally signed decimal integer literals.
* Wall-clock timestamps (`at` fields) carry no logic and are omitted.
* `fetch` effects are an oracle `Nat → FetchResult` indexed by the attempt
  number; a thrown network error is `FetchResult.err` carrying the
  message string used by `err?.message`.
* Promise scheduling is sequentialised: the scheduler trace lists events
  (dispatch submissions, batch writes, checkpoint writes) in the order the
  code awaits them.
* File contents are `List Char`; byte sizes are UTF-8 sizes and the
  line-terminator scan of `countFileLines` counts `'\n'` characters (in
  UTF-8 the byte 0x0a occurs only as that character).
* The recursion of `requestForKeyWithBackoff` is made structural on
  `remaining = maxAttempts - attempt`; the source guard
  `attempt < maxAttempts` is exactly `remaining ≠ 0`.
-/

/-! ## JSON values and JavaScript coercions -/

inductive Json where
  | null : Json
  | bool (b : Bool) : Json
  | num (n : Int) : Json
  | str (s : String) : Json
  | arr (elems : List Json) : Json
  | obj (fields : List (String × Json)) : Json

/-- Property access `v?.k`: `none` models JavaScript `undefined`. -/
def jsGet : Json → String → Option Json
  | Json.obj fields, k => fields.lookup k
  | _, _ => none

/-- JavaScript truthiness of a JSON value. -/
def truthy : Json → Bool
  | Json.null => false
  | Json.bool b => b
  | Json.num n => n != 0
  | Json.str s => !(s == "")
  | Json.arr _ => true
  | Json.obj _ => true

/-- Models the guard reading a string message field:
`typeof json?.message === "string" ? json.message : undefined`. -/
def msgOf (json : Json) : Option String :=
  match jsGet json "message" with
  | some (Json.str s) => some s
  | _ => none

/-- Models the success guard
`json?.data && Array.isArray(json.data.list_standby)`, returning the
array when the guard passes. -/
def listStandbyOf (json : Json) : Option (List Json) :=
  match jsGet json "data" with
  | some d =>
      if truthy d then
        match jsGet d "list_standby" with
        | some (Json.arr xs) => some xs
        | _ => none
      else none
  | none => none

/-- Digit accumulation for decimal string parsing; `none` on a non-digit. -/
def parseDigitsAux : Nat → List Char → Option Nat
  | acc, [] => some acc
  | acc, c :: cs =>
      if c.isDigit then parseDigitsAux (acc * 10 + (c.toNat - '0'.toNat)) cs
      else none

/-- JavaScript `Number(string)` restricted to optionally signed decimal
integer literals; `none` models NaN. -/
def parseJsNumber (s : String) : Option Int :=
  match s.data with
  | [] => some 0
  | '-' :: rest =>
      match rest with
      | [] => none
      | _ :: _ => (parseDigitsAux 0 rest).map (fun n => -(n : Int))
  | '+' :: rest =>
      match rest with
      | [] => none
      | _ :: _ => (parseDigitsAux 0 rest).map Int.ofNat
  | l => (parseDigitsAux 0 l).map Int.ofNat

/-- JavaScript `Number(v)` on a JSON value; `none` models NaN
(arrays/objects are conservatively mapped to NaN). -/
def jsToNumber : Json → Option Int
  | Json.null => some 0
  | Json.bool b => some (if b then 1 else 0)
  | Json.num n => some n
  | Json.str s => parseJsNumber s
  | Json.arr _ => none
  | Json.obj _ => none

/-! ## Character-list string helpers -/

/-- Does the list start with the pattern (second argument)? -/
def listStartsWith : List Char → List Char → Bool
  | _, [] => true
  | [], _ :: _ => false
  | c :: cs, q :: qs => (c == q) && listStartsWith cs qs

/-- Substring containment (JavaScript includes) on character lists. -/
def listHasSub : List Char → List Char → Bool
  | [], pat => pat.isEmpty
  | c :: cs, pat => listStartsWith (c :: cs) pat || listHasSub cs pat

/-- Lowercasing (JavaScript toLowerCase) on character lists, adequate for
the ASCII sentinel. -/
def charsLower (s : List Char) : List Char := s.map Char.toLower

/-! ## KeySpaceEnumerator (manage-data.ts) -/

def allowedLetters : List Char :=
  ['M', 'N', 'O', 'P', 'Q', 'R', 'S', 'T', 'U', 'V', 'W', 'X', 'Y']

def fixedPrefix : String := "OPPQQRRSSTTUUU"

def sequenceLength : Nat := 6

/-- The six nested `for` loops of `generateSequences`, as the list of all
yielded suffixes in yield order (each suffix as its character list). -/
def generateSequences : List (List Char) :=
  allowedLetters.flatMap fun c0 =>
    allowedLetters.flatMap fun c1 =>
      allowedLetters.flatMap fun c2 =>
        allowedLetters.flatMap fun c3 =>
          allowedLetters.flatMap fun c4 =>
            allowedLetters.map fun c5 => [c0, c1, c2, c3, c4, c5]

/-- The letter for one base-13 digit (`allowedLetters[d]`). -/
def letterOf (d : Nat) : Char := allowedLetters.getD d ' '

/-- Base-`a` digits of `k`, most significant first, at fixed width. -/
def digitsMSB (a : Nat) : Nat → Nat → List Nat
  | 0, _ => []
  | d + 1, k => (k / a ^ d) % a :: digitsMSB a d k

/-- The suffix the spec assigns to global index `k`: the base-13 digits of
`k`, most significant first, mapped through the alphabet. -/
def seqAt (k : Nat) : List Char := (digitsMSB 13 sequenceLength k).map letterOf

/-- The full key at global index `k`. -/
def keyAt (k : Nat) : String := fixedPrefix ++ String.mk (seqAt k)

/-- Value of a most-significant-first digit list. -/
def fromDigits (a : Nat) (ds : List Nat) : Nat :=
  ds.foldl (fun acc d => acc * a + d) 0

/-! ## RequestDispatcher (requestForKeyWithBackoff) -/

/-- Outcome of one `fetch`+`response.json()`: a parsed body, or a thrown
network-level error carrying the message used by `err?.message`. -/
inductive FetchResult where
  | ok (json : Json) : FetchResult
  | err (message : String) : FetchResult

/-- One `allIdsEntry`: `{ [fullID]: { index, at, response } }`. -/
structure AuditEntry where
  fullID : String
  index : Nat
  response : Json

/-- One `successEntry`: `{ index, fullID, data, at }`. -/
structure SuccessEntry where
  index : Nat
  fullID : String
  data : List Json

/-- Resolved value of `requestForKeyWithBackoff`, extended with the list
of backoff delays (in ms) slept before each retry, in order. -/
structure BackoffResult where
  allIdsEntry : AuditEntry
  successEntry : Option SuccessEntry
  sleeps : List Nat

def maxAttempts : Nat := 5

/-- The configured terminal-signal sentinel substring. -/
def invalidLiteralSentinel : String := "invalid literal for int() with base 10"

/-- Models the sentinel test
`msg.toLowerCase().includes(invalidLiteralSentinel)`. -/
def hasInvalidLiteralMsg (m : String) : Bool :=
  listHasSub (charsLower m.data) invalidLiteralSentinel.data

/-- Body of `requestForKeyWithBackoff`, structural on
`remaining = maxAttempts - attempt`; `remaining ≠ 0` is exactly the source
guard `attempt < maxAttempts`. -/
def backoffAux (fetch : Nat → FetchResult) (seq : String) (index : Nat) :
    Nat → Nat → BackoffResult
  | attempt, remaining =>
    match fetch attempt with
    | FetchResult.ok json =>
        let fullID := fixedPrefix ++ seq
        let allIdsEntry : AuditEntry :=
          { fullID := fullID, index := index, response := json }
        let msg := msgOf json
        let hasInvalidLiteral :=
          match msg with
          | some m => hasInvalidLiteralMsg m
          | none => false
        match listStandbyOf json with
        | some xs =>
            { allIdsEntry := allIdsEntry,
              successEntry := some { index := index, fullID := fullID, data := xs },
              sleeps := [] }
        | none =>
            if hasInvalidLiteral then
              { allIdsEntry := allIdsEntry, successEntry := none, sleeps := [] }
            else if msg.isSome then
              { allIdsEntry := allIdsEntry, successEntry := none, sleeps := [] }
            else
              match remaining with
              | r + 1 =>
                  let rec' := backoffAux fetch seq index (attempt + 1) r
                  { rec' with sleeps := 2 ^ attempt * 1000 :: rec'.sleeps }
              | 0 =>
                  { allIdsEntry := allIdsEntry, successEntry := none, sleeps := [] }
    | FetchResult.err e =>
        match remaining with
        | r + 1 =>
            let rec' := backoffAux fetch seq index (attempt + 1) r
            { rec' with sleeps := 2 ^ attempt * 1000 :: rec'.sleeps }
        | 0 =>
            { allIdsEntry :=
                { fullID := fixedPrefix ++ seq, index := index,
                  response := Json.obj
                    [("error",
                      Json.str ("Fallo tras " ++ toString maxAttempts ++
                        " intentos: " ++ e))] },
              successEntry := none, sleeps := [] }

/-- The function `requestForKeyWithBackoff(seq, index, attempt)` with its
fetch oracle. -/
def requestForKeyWithBackoff (fetch : Nat → FetchResult) (seq : String)
    (index : Nat) (attempt : Nat) : BackoffResult :=
  backoffAux fetch seq index attempt (maxAttempts - attempt)

/-- A response is transient for the retry ladder iff it is a network-level
failure or a payload with neither the success shape nor a string message. -/
def transientResp : FetchResult → Bool
  | FetchResult.err _ => true
  | FetchResult.ok j => !(listStandbyOf j).isSome && !(msgOf j).isSome

/-- The claim's wording of the success shape: the payload contains an
array field at `data.list_standby` (modelled from the spec's words, for
comparison with the source's guard `listStandbyOf`). -/
def claimSuccessShape (json : Json) : Bool :=
  match jsGet json "data" with
  | some d =>
      match jsGet d "list_standby" with
      | some (Json.arr _) => true
      | _ => false
  | none => false

/-- Synthesized-error response shape produced at retry exhaustion. -/
def isSynthesizedError : Json → Bool
  | Json.obj [("error", Json.str _)] => true
  | _ => false

/-- The scheduler's per-key wrapper: it awaits `requestForKeyWithBackoff`
and catches rejections as `null`; the embedded ladder is total, so the
catch arm is unreachable and the wrapper always fulfills. -/
def dispatchOf (fetch : Nat → Nat → FetchResult) :
    Nat → String → Option BackoffResult :=
  fun index seq => some (requestForKeyWithBackoff (fetch index) seq index 1)

/-! ## DurableLogWriter (RotatingNdjsonWriter) -/

structure RotateOptions where
  maxBytesPerPart : Nat
  maxLinesPerPart : Nat

/-- In-memory writer state (and shape of the advisory `meta.json`). -/
structure MetaState where
  part : Nat
  lines : Nat
  bytes : Nat
  deriving DecidableEq

/-- One log directory: numbered part files (content as characters) plus
the advisory metadata file. -/
structure DiskDir where
  parts : List (Nat × List Char)
  meta : Option MetaState
  deriving DecidableEq

/-- UTF-8 byte length, modelling Buffer.byteLength. -/
def utf8Len (s : List Char) : Nat := (s.map Char.utf8Size).sum

/-- The function countFileLines: literal scan for line-terminator bytes. -/
def countFileLines (s : List Char) : Nat := s.countP (fun c => c == '\n')

/-- Models the join step of serialization:
`objs.map(JSON.stringify).join(newline)`. -/
def joinSep : List (List Char) → List Char
  | [] => []
  | [l] => l
  | l :: l' :: ls => l ++ '\n' :: joinSep (l' :: ls)

/-- The serialized batch `objs.map(JSON.stringify).join('\n') + '\n'`. -/
def joinNl (ls : List (List Char)) : List Char := joinSep ls ++ ['\n']

def lookupPart (d : DiskDir) (n : Nat) : Option (List Char) :=
  d.parts.lookup n

/-- Content of part `n` (empty when the file is absent). -/
def partContent (d : DiskDir) (n : Nat) : List Char :=
  (lookupPart d n).getD []

/-- Write (create or truncate-and-replace) part file `n`. -/
def setPart (d : DiskDir) (n : Nat) (c : List Char) : DiskDir :=
  if (d.parts.lookup n).isSome then
    { d with parts := d.parts.map fun p => if p.1 = n then (n, c) else p }
  else
    { d with parts := d.parts ++ [(n, c)] }

/-- Appending to a part file, modelling fs.promises.appendFile (which
creates the file when absent). -/
def appendToPart (d : DiskDir) (n : Nat) (s : List Char) : DiskDir :=
  setPart d n (partContent d n ++ s)

/-- Replace the advisory metadata file. -/
def setMeta (d : DiskDir) (m : Option MetaState) : DiskDir :=
  { d with meta := m }

/-- The method flushMeta: writes the advisory metadata file. -/
def flushMeta (st : MetaState) (d : DiskDir) : DiskDir := setMeta d (some st)

/-- The function findLatestPartNumber: maximum existing part number, 0 if
none exists. -/
def findLatestPartNumber (d : DiskDir) : Nat :=
  d.parts.foldr (fun p acc => max p.1 acc) 0

/-- The method recoverStateFromDisk: re-derive state from the actual part
files. -/
def recoverStateFromDisk (d : DiskDir) : MetaState × DiskDir :=
  let latest := findLatestPartNumber d
  if latest = 0 then
    let st : MetaState := { part := 1, lines := 0, bytes := 0 }
    let d' := setPart d 1 []
    (st, flushMeta st d')
  else
    let c := partContent d latest
    let st : MetaState :=
      { part := latest, lines := countFileLines c, bytes := utf8Len c }
    (st, flushMeta st d)

/-- The method rotate: advance to the next part (creating it when
absent). -/
def rotate (st : MetaState) (d : DiskDir) : MetaState × DiskDir :=
  let st' : MetaState := { part := st.part + 1, lines := 0, bytes := 0 }
  let d' := if (lookupPart d st'.part).isSome then d else setPart d st'.part []
  (st', flushMeta st' d')

/-- The method needsRotate applied to incomingBytes and incomingLines. -/
def needsRotate (opts : RotateOptions) (st : MetaState)
    (incomingBytes incomingLines : Nat) : Bool :=
  (opts.maxBytesPerPart < st.bytes + incomingBytes) ||
    (opts.maxLinesPerPart < st.lines + incomingLines)

/-- The method appendBatch over an abstract record type with serializer
`ser` (modelling `JSON.stringify`, which never emits a raw newline). -/
def appendBatch {α : Type} (ser : α → List Char) (opts : RotateOptions)
    (st : MetaState) (d : DiskDir) (objs : List α) : MetaState × DiskDir :=
  match objs with
  | [] => (st, d)
  | _ :: _ =>
    let linesStr := joinNl (objs.map ser)
    let incomingBytes := utf8Len linesStr
    let incomingLines := objs.length
    let rotated :=
      if needsRotate opts st incomingBytes incomingLines then rotate st d
      else (st, d)
    let st1 := rotated.1
    let d1 := appendToPart rotated.2 st1.part linesStr
    let st2 : MetaState :=
      { part := st1.part, lines := st1.lines + incomingLines,
        bytes := st1.bytes + incomingBytes }
    (st2, flushMeta st2 d1)

/-- Total NDJSON lines on disk across all parts (used by the spec's
testable property, not by the code). -/
def totalLines (d : DiskDir) : Nat :=
  (d.parts.map (fun p => countFileLines p.2)).sum

/-- Sum of all part-file sizes (used by the spec's testable property). -/
def totalBytes (d : DiskDir) : Nat :=
  (d.parts.map (fun p => utf8Len p.2)).sum

/-- Invariant of a live writer: the in-memory state mirrors the current
(highest-numbered, existing) part file exactly. -/
def WriterInv (st : MetaState) (d : DiskDir) : Prop :=
  1 ≤ st.part ∧
  (lookupPart d st.part).isSome = true ∧
  st.bytes = utf8Len (partContent d st.part) ∧
  st.lines = countFileLines (partContent d st.part) ∧
  ∀ p ∈ d.parts, p.1 ≤ st.part

instance (st : MetaState) (d : DiskDir) : Decidable (WriterInv st d) := by
  unfold WriterInv; infer_instance

/-! ## ProgressCheckpoint and BatchScheduler (index.ts) -/

/-- The function readProgressIndex: the checkpoint file parsed as JSON
(`none` for a
missing or unparseable file). -/
def readProgressIndex (file : Option Json) : Nat :=
  match file with
  | none => 0
  | some parsed =>
    let v : Json :=
      match jsGet parsed "lastIndex" with
      | none => Json.num 0
      | some Json.null => Json.num 0
      | some x => x
    match jsToNumber v with
    | some n => if 0 ≤ n then n.toNat else 0
    | none => 0

/-- Observable scheduler actions, in the order the code awaits them. -/
inductive Event where
  | dispatch (index : Nat) (seq : String) : Event
  | appendAudit (batch : List AuditEntry) : Event
  | appendSuccess (batch : List SuccessEntry) : Event
  | checkpoint (lastIndex : Nat) : Event

/-- One window flush: partition settled results, write the audit batch,
then the success batch, then the checkpoint at the current index. -/
def flushEvents (pending : List (Option BackoffResult)) (index : Nat) :
    List Event :=
  let fulfilled := pending.filterMap id
  [Event.appendAudit (fulfilled.map (fun r => r.allIdsEntry)),
   Event.appendSuccess (fulfilled.filterMap (fun r => r.successEntry)),
   Event.checkpoint index]

/-- The scheduler loop of `getUsersAssignment`: skip below the recovered
checkpoint, submit dispatches, flush every `batchSize` submissions, and
flush the final partial window. -/
def schedLoop (dispatch : Nat → String → Option BackoffResult)
    (batchSize startIndex : Nat) :
    List String → Nat → List (Option BackoffResult) → List Event
  | [], index, pending =>
      if pending.isEmpty then [] else flushEvents pending index
  | s :: rest, index, pending =>
      if index < startIndex then
        schedLoop dispatch batchSize startIndex rest (index + 1) pending
      else
        let p := dispatch index s
        let pending' := pending ++ [p]
        if pending'.length = batchSize then
          Event.dispatch index s ::
            (flushEvents pending' (index + 1) ++
              schedLoop dispatch batchSize startIndex rest (index + 1) [])
        else
          Event.dispatch index s ::
            schedLoop dispatch batchSize startIndex rest (index + 1) pending'

/-- The constant BATCH_SIZE (settings assume 1000). -/
def BATCH_SIZE : Nat := 1000

/-- The function getUsersAssignment as its event trace: resume index from
the
checkpoint file, then drive the full keyspace through the loop. -/
def getUsersAssignment (dispatch : Nat → String → Option BackoffResult)
    (progressFile : Option Json) : List Event :=
  schedLoop dispatch BATCH_SIZE (readProgressIndex progressFile)
    (generateSequences.map String.mk) 0 []

/-- The C2 claim's checker, modelled from its words: at every persisted
checkpoint, the written `lastIndex` does not exceed the highest globalIndex
among audit records flushed so far. -/
def c2CheckAux : List Nat → List Event → Bool
  | _, [] => true
  | flushed, Event.appendAudit b :: rest =>
      c2CheckAux (flushed ++ b.map (fun e => e.index)) rest
  | flushed, Event.checkpoint c :: rest =>
      flushed.any (fun i => c ≤ i) && c2CheckAux flushed rest
  | flushed, _ :: rest => c2CheckAux flushed rest

def c2Check (tr : List Event) : Bool := c2CheckAux [] tr

/-! ## Theorems: keyspace enumerator (C1) -/

theorem length_flatMap_const {α β : Type} (l : List α) (f : α → List β) (L : Nat)
    (h : ∀ a ∈ l, (f a).length = L) : (l.flatMap f).length = l.length * L := by
  induction l with
  | nil => simp
  | cons a t ih =>
      simp only [List.flatMap_cons, List.length_append, List.length_cons]
      rw [h a (by simp), ih (fun b hb => h b (by simp [hb]))]
      ring

theorem getElem?_flatMap_const {α β : Type} (l : List α) (f : α → List β) (L : Nat)
    (h : ∀ a ∈ l, (f a).length = L) (k : Nat) :
    (l.flatMap f)[k]? = (l[k / L]?).bind fun a => (f a)[k % L]? := by
  rcases Nat.eq_zero_or_pos L with hL | hLpos
  · subst hL
    have hnil : l.flatMap f = [] := by
      apply List.eq_nil_of_length_eq_zero
      rw [length_flatMap_const l f 0 h]
      simp
    rw [hnil]
    cases hl : l[k / 0]? with
    | none => simp
    | some a =>
        have ha : (f a).length = 0 := h a (List.getElem?_mem hl)
        have hnone : (f a)[k % 0]? = none := List.getElem?_eq_none (by omega)
        simp [hl, hnone]
        omega
  · induction l generalizing k with
    | nil => simp
    | cons a t ih =>
        simp only [List.flatMap_cons]
        rw [List.getElem?_append]
        have hfa : (f a).length = L := h a (by simp)
        by_cases hk : k < (f a).length
        · have hkL : k < L := hfa ▸ hk
          rw [if_pos hk]
          rw [Nat.div_eq_of_lt hkL, Nat.mod_eq_of_lt hkL]
          simp
        · rw [if_neg hk]
          have hkL : L ≤ k := by omega
          rw [hfa]
          rw [ih (fun b hb => h b (by simp [hb])) (k - L)]
          rw [Nat.div_eq_sub_div hLpos hkL, Nat.mod_eq_sub_mod hkL]
          rw [List.getElem?_cons_succ]

theorem allowedLetters_length : allowedLetters.length = 13 := rfl

theorem allowedLetters_getElem? : ∀ d, d < 13 → allowedLetters[d]? = some (letterOf d) := by
  decide

theorem genLen1 (c0 c1 c2 c3 c4 : Char) :
    (allowedLetters.map fun c5 => [c0, c1, c2, c3, c4, c5]).length = 13 ^ 1 := rfl

theorem genLen2 (c0 c1 c2 c3 : Char) :
    (allowedLetters.flatMap fun c4 =>
      allowedLetters.map fun c5 => [c0, c1, c2, c3, c4, c5]).length = 13 ^ 2 := by
  rw [length_flatMap_const _ _ (13 ^ 1) (fun c4 _ => genLen1 c0 c1 c2 c3 c4),
    allowedLetters_length]
  norm_num

theorem genLen3 (c0 c1 c2 : Char) :
    (allowedLetters.flatMap fun c3 => allowedLetters.flatMap fun c4 =>
      allowedLetters.map fun c5 => [c0, c1, c2, c3, c4, c5]).length = 13 ^ 3 := by
  rw [length_flatMap_const _ _ (13 ^ 2) (fun c3 _ => genLen2 c0 c1 c2 c3),
    allowedLetters_length]
  norm_num

theorem genLen4 (c0 c1 : Char) :
    (allowedLetters.flatMap fun c2 => allowedLetters.flatMap fun c3 =>
      allowedLetters.flatMap fun c4 =>
        allowedLetters.map fun c5 => [c0, c1, c2, c3, c4, c5]).length = 13 ^ 4 := by
  rw [length_flatMap_const _ _ (13 ^ 3) (fun c2 _ => genLen3 c0 c1 c2),
    allowedLetters_length]
  norm_num

theorem genLen5 (c0 : Char) :
    (allowedLetters.flatMap fun c1 => allowedLetters.flatMap fun c2 =>
      allowedLetters.flatMap fun c3 => allowedLetters.flatMap fun c4 =>
        allowedLetters.map fun c5 => [c0, c1, c2, c3, c4, c5]).length = 13 ^ 5 := by
  rw [length_flatMap_const _ _ (13 ^ 4) (fun c1 _ => genLen4 c0 c1),
    allowedLetters_length]
  norm_num

theorem generateSequences_length : generateSequences.length = 13 ^ 6 := by
  unfold generateSequences
  rw [length_flatMap_const _ _ (13 ^ 5) (fun c0 _ => genLen5 c0), allowedLetters_length]
  norm_num

theorem mpd5 (k : Nat) : k % 13 ^ 5 / 13 ^ 4 = k / 13 ^ 4 % 13 := by
  rw [show (13 : Nat) ^ 5 = 13 ^ 4 * 13 by norm_num]
  exact Nat.mod_mul_right_div_self k (13 ^ 4) 13

theorem mpm5 (k : Nat) : k % 13 ^ 5 % 13 ^ 4 = k % 13 ^ 4 := by
  rw [show (13 : Nat) ^ 5 = 13 ^ 4 * 13 by norm_num]
  exact Nat.mod_mul_right_mod k (13 ^ 4) 13

theorem mpd4 (k : Nat) : k % 13 ^ 4 / 13 ^ 3 = k / 13 ^ 3 % 13 := by
  rw [show (13 : Nat) ^ 4 = 13 ^ 3 * 13 by norm_num]
  exact Nat.mod_mul_right_div_self k (13 ^ 3) 13

theorem mpm4 (k : Nat) : k % 13 ^ 4 % 13 ^ 3 = k % 13 ^ 3 := by
  rw [show (13 : Nat) ^ 4 = 13 ^ 3 * 13 by norm_num]
  exact Nat.mod_mul_right_mod k (13 ^ 3) 13

theorem mpd3 (k : Nat) : k % 13 ^ 3 / 13 ^ 2 = k / 13 ^ 2 % 13 := by
  rw [show (13 : Nat) ^ 3 = 13 ^ 2 * 13 by norm_num]
  exact Nat.mod_mul_right_div_self k (13 ^ 2) 13

theorem mpm3 (k : Nat) : k % 13 ^ 3 % 13 ^ 2 = k % 13 ^ 2 := by
  rw [show (13 : Nat) ^ 3 = 13 ^ 2 * 13 by norm_num]
  exact Nat.mod_mul_right_mod k (13 ^ 2) 13

theorem mpd2 (k : Nat) : k % 13 ^ 2 / 13 ^ 1 = k / 13 ^ 1 % 13 := by
  rw [show (13 : Nat) ^ 2 = 13 ^ 1 * 13 by norm_num]
  exact Nat.mod_mul_right_div_self k (13 ^ 1) 13

theorem mpm2 (k : Nat) : k % 13 ^ 2 % 13 ^ 1 = k % 13 ^ 1 := by
  rw [show (13 : Nat) ^ 2 = 13 ^ 1 * 13 by norm_num]
  exact Nat.mod_mul_right_mod k (13 ^ 1) 13

theorem last_digit_eq (k : Nat) : k % 13 ^ 1 = k / 13 ^ 0 % 13 := by
  norm_num

theorem seqAt_explicit (k : Nat) :
    seqAt k = [letterOf (k / 13 ^ 5 % 13), letterOf (k / 13 ^ 4 % 13),
      letterOf (k / 13 ^ 3 % 13), letterOf (k / 13 ^ 2 % 13),
      letterOf (k / 13 ^ 1 % 13), letterOf (k / 13 ^ 0 % 13)] := rfl

theorem generateSequences_getElem (k : Nat) (hk : k < 13 ^ 6) :
    generateSequences[k]? = some (seqAt k) := by
  have hd0 : k / 13 ^ 5 < 13 := by
    rw [Nat.div_lt_iff_lt_mul (by norm_num : (0 : Nat) < 13 ^ 5)]
    calc k < 13 ^ 6 := hk
      _ = 13 * 13 ^ 5 := by norm_num
  unfold generateSequences
  rw [getElem?_flatMap_const _ _ (13 ^ 5) (fun c0 _ => genLen5 c0) k]
  rw [allowedLetters_getElem? _ hd0, Option.some_bind]
  rw [getElem?_flatMap_const _ _ (13 ^ 4) (fun c1 _ => genLen4 _ c1) (k % 13 ^ 5)]
  rw [mpd5 k, mpm5 k]
  rw [allowedLetters_getElem? _ (Nat.mod_lt _ (by norm_num)), Option.some_bind]
  rw [getElem?_flatMap_const _ _ (13 ^ 3) (fun c2 _ => genLen3 _ _ c2) (k % 13 ^ 4)]
  rw [mpd4 k, mpm4 k]
  rw [allowedLetters_getElem? _ (Nat.mod_lt _ (by norm_num)), Option.some_bind]
  rw [getElem?_flatMap_const _ _ (13 ^ 2) (fun c3 _ => genLen2 _ _ _ c3) (k % 13 ^ 3)]
  rw [mpd3 k, mpm3 k]
  rw [allowedLetters_getElem? _ (Nat.mod_lt _ (by norm_num)), Option.some_bind]
  rw [getElem?_flatMap_const _ _ (13 ^ 1) (fun c4 _ => genLen1 _ _ _ _ c4) (k % 13 ^ 2)]
  rw [mpd2 k, mpm2 k]
  rw [allowedLetters_getElem? _ (Nat.mod_lt _ (by norm_num)), Option.some_bind]
  rw [List.getElem?_map]
  rw [last_digit_eq k]
  rw [allowedLetters_getElem? _ (Nat.mod_lt _ (by norm_num))]
  rw [Option.map_some']
  rw [show k / 13 ^ 5 = k / 13 ^ 5 % 13 from (Nat.mod_eq_of_lt hd0).symm]
  rw [seqAt_explicit k]

theorem letterOf_inj : ∀ x, x < 13 → ∀ y, y < 13 → letterOf x = letterOf y → x = y := by
  decide

theorem digitsMSB_map_letterOf_inj :
    ∀ d k1 k2, (digitsMSB 13 d k1).map letterOf = (digitsMSB 13 d k2).map letterOf →
      digitsMSB 13 d k1 = digitsMSB 13 d k2 := by
  intro d
  induction d with
  | zero => intro k1 k2 _; rfl
  | succ d ih =>
      intro k1 k2 h
      simp only [digitsMSB, List.map_cons, List.cons.injEq] at h ⊢
      exact ⟨letterOf_inj _ (Nat.mod_lt _ (by norm_num)) _ (Nat.mod_lt _ (by norm_num)) h.1,
        ih _ _ h.2⟩

theorem foldl_digitsMSB (a : Nat) :
    ∀ d k acc, (digitsMSB a d k).foldl (fun acc dg => acc * a + dg) acc =
      acc * a ^ d + k % a ^ d := by
  intro d
  induction d with
  | zero => intro k acc; simp [digitsMSB, Nat.mod_one]
  | succ d ih =>
      intro k acc
      simp only [digitsMSB, List.foldl_cons]
      rw [ih k (acc * a + k / a ^ d % a)]
      have h3 := Nat.div_add_mod (k % (a ^ d * a)) (a ^ d)
      rw [Nat.mod_mul_right_div_self k (a ^ d) a, Nat.mod_mul_right_mod k (a ^ d) a] at h3
      have key : k / a ^ d % a * a ^ d + k % a ^ d = k % (a ^ d * a) := by
        rw [Nat.mul_comm (a ^ d) (k / a ^ d % a)] at h3
        omega
      calc (acc * a + k / a ^ d % a) * a ^ d + k % a ^ d
          = acc * (a ^ d * a) + (k / a ^ d % a * a ^ d + k % a ^ d) := by ring
        _ = acc * a ^ (d + 1) + k % a ^ (d + 1) := by rw [key, pow_succ]

theorem digitsMSB_inj (a d k1 k2 : Nat) (h1 : k1 < a ^ d) (h2 : k2 < a ^ d)
    (h : digitsMSB a d k1 = digitsMSB a d k2) : k1 = k2 := by
  have e1 := foldl_digitsMSB a d k1 0
  have e2 := foldl_digitsMSB a d k2 0
  rw [h] at e1
  rw [e1] at e2
  rw [Nat.mod_eq_of_lt h1, Nat.mod_eq_of_lt h2] at e2
  omega

theorem keyAt_inj (k1 k2 : Nat) (h1 : k1 < 13 ^ 6) (h2 : k2 < 13 ^ 6)
    (h : keyAt k1 = keyAt k2) : k1 = k2 := by
  have hdata := congrArg String.data h
  simp only [keyAt, String.data_append] at hdata
  have hseq : seqAt k1 = seqAt k2 := List.append_cancel_left hdata
  exact digitsMSB_inj 13 6 k1 k2 h1 h2 (digitsMSB_map_letterOf_inj 6 k1 k2 hseq)

/-- Claim C1: for every `k < 13^6`, the `k`-th suffix yielded by
`generateSequences` is the base-13 digit decomposition of `k`, most
significant digit first, with each digit mapped through `allowedLetters`
in its given order (this is `seqAt k`); the enumeration has exactly
`13^6` entries and the index-to-key mapping `keyAt` is injective on
`[0, 13^6)`, so index-to-key is a bijection over the full range. -/
theorem claim_c1 :
    generateSequences.length = 13 ^ 6 ∧
    (∀ k, k < 13 ^ 6 → generateSequences[k]? = some (seqAt k)) ∧
    (∀ k1 k2, k1 < 13 ^ 6 → k2 < 13 ^ 6 → keyAt k1 = keyAt k2 → k1 = k2) :=
  ⟨generateSequences_length, generateSequences_getElem, keyAt_inj⟩

/-- Witness for C1 at concrete inputs: index 20 = 1·13 + 7 decodes to the
suffix `MMMMNT`, and injectivity is applied at indices 1, 1. -/
theorem claim_c1_witness :
    (20 : Nat) < 13 ^ 6 ∧
    generateSequences[20]? = some ['M', 'M', 'M', 'M', 'N', 'T'] ∧
    (1 : Nat) = 1 := by
  refine ⟨by norm_num, ?_, claim_c1.2.2 1 1 (by norm_num) (by norm_num) rfl⟩
  rw [claim_c1.2.1 20 (by norm_num)]
  rfl

/-! ## Theorems: request dispatcher (C4, C5, C6) -/

theorem backoffAux_rem0_sleeps (fetch : Nat → FetchResult) (seq : String)
    (index attempt : Nat) : (backoffAux fetch seq index attempt 0).sleeps = [] := by
  unfold backoffAux
  cases fetch attempt with
  | ok json =>
      dsimp only
      cases listStandbyOf json with
      | some xs => rfl
      | none =>
          dsimp only
          split
          · rfl
          · split
            · rfl
            · rfl
  | err e => rfl

theorem backoffAux_unroll (fetch : Nat → FetchResult) (seq : String) (index : Nat) :
    ∀ rem attempt, (∀ a, attempt ≤ a → a < attempt + rem → transientResp (fetch a) = true) →
      backoffAux fetch seq index attempt rem =
        { backoffAux fetch seq index (attempt + rem) 0 with
          sleeps := (List.range' attempt rem).map fun a => 2 ^ a * 1000 } := by
  intro rem
  induction rem with
  | zero =>
      intro attempt _
      have h0 := backoffAux_rem0_sleeps fetch seq index attempt
      cases hfin : backoffAux fetch seq index (attempt + 0) 0 with
      | mk a s sl =>
          rw [Nat.add_zero] at hfin
          rw [hfin] at h0 ⊢
          simp at h0
          simp [List.range', h0]
  | succ r ih =>
      intro attempt h
      have ht : transientResp (fetch attempt) = true :=
        h attempt (Nat.le_refl _) (by omega)
      have harith : attempt + 1 + r = attempt + (r + 1) := by omega
      have hrange : (List.range' attempt (r + 1)).map (fun a => 2 ^ a * 1000) =
          2 ^ attempt * 1000 :: (List.range' (attempt + 1) r).map (fun a => 2 ^ a * 1000) := by
        rw [List.range'_succ, List.map_cons]
      cases hf : fetch attempt with
      | ok json =>
          have hls : listStandbyOf json = none := by
            rw [hf] at ht
            simp [transientResp] at ht
            exact Option.not_isSome_iff_eq_none.mp (by simp [ht.1])
          have hmsg : msgOf json = none := by
            rw [hf] at ht
            simp [transientResp] at ht
            exact Option.not_isSome_iff_eq_none.mp (by simp [ht.2])
          have hstep : backoffAux fetch seq index attempt (r + 1) =
              { backoffAux fetch seq index (attempt + 1) r with
                sleeps := 2 ^ attempt * 1000 ::
                  (backoffAux fetch seq index (attempt + 1) r).sleeps } := by
            conv_lhs => rw [backoffAux]
            rw [hf]
            simp [hls, hmsg]
          rw [hstep, ih (attempt + 1) (fun a ha1 ha2 => h a (by omega) (by omega)),
            harith, hrange]
      | err e =>
          have hstep : backoffAux fetch seq index attempt (r + 1) =
              { backoffAux fetch seq index (attempt + 1) r with
                sleeps := 2 ^ attempt * 1000 ::
                  (backoffAux fetch seq index (attempt + 1) r).sleeps } := by
            conv_lhs => rw [backoffAux]
            rw [hf]
          rw [hstep, ih (attempt + 1) (fun a ha1 ha2 => h a (by omega) (by omega)),
            harith, hrange]

theorem backoffAux_exhaust (fetch : Nat → FetchResult) (seq : String)
    (index attempt : Nat) (ht : transientResp (fetch attempt) = true) :
    (backoffAux fetch seq index attempt 0).successEntry = none ∧
    (∀ e, fetch attempt = FetchResult.err e →
      (backoffAux fetch seq index attempt 0).allIdsEntry.response =
        Json.obj [("error", Json.str ("Fallo tras " ++ toString maxAttempts ++
          " intentos: " ++ e))]) ∧
    (∀ j, fetch attempt = FetchResult.ok j →
      (backoffAux fetch seq index attempt 0).allIdsEntry.response = j) := by
  cases hf : fetch attempt with
  | ok json =>
      have hls : listStandbyOf json = none := by
        rw [hf] at ht
        simp [transientResp] at ht
        exact Option.not_isSome_iff_eq_none.mp (by simp [ht.1])
      have hmsg : msgOf json = none := by
        rw [hf] at ht
        simp [transientResp] at ht
        exact Option.not_isSome_iff_eq_none.mp (by simp [ht.2])
      have hstep : backoffAux fetch seq index attempt 0 =
          { allIdsEntry := { fullID := fixedPrefix ++ seq, index := index, response := json },
            successEntry := none, sleeps := [] } := by
        conv_lhs => rw [backoffAux]
        rw [hf]
        simp [hls, hmsg]
      rw [hstep]
      refine ⟨rfl, ?_, ?_⟩
      · intro e he
        exact FetchResult.noConfusion he
      · intro j hj
        cases hj
        rfl
  | err e =>
      have hstep : backoffAux fetch seq index attempt 0 =
          { allIdsEntry :=
              { fullID := fixedPrefix ++ seq, index := index,
                response := Json.obj [("error", Json.str ("Fallo tras " ++
                  toString maxAttempts ++ " intentos: " ++ e))] },
            successEntry := none, sleeps := [] } := by
        conv_lhs => rw [backoffAux]
        rw [hf]
      rw [hstep]
      refine ⟨rfl, ?_, ?_⟩
      · intro e' he
        cases he
        rfl
      · intro j hj
        exact FetchResult.noConfusion hj

theorem backoffAux_sleeps_len (fetch : Nat → FetchResult) (seq : String) (index : Nat) :
    ∀ rem attempt, (backoffAux fetch seq index attempt rem).sleeps.length ≤ rem := by
  intro rem
  induction rem with
  | zero =>
      intro attempt
      rw [backoffAux_rem0_sleeps]
      simp
  | succ r ih =>
      intro attempt
      unfold backoffAux
      cases fetch attempt with
      | ok json =>
          dsimp only
          cases listStandbyOf json with
          | some xs => simp
          | none =>
              dsimp only
              split
              · simp
              · split
                · simp
                · simp only [List.length_cons]
                  have := ih (attempt + 1)
                  omega
      | err e =>
          simp only [List.length_cons]
          have := ih (attempt + 1)
          omega

/-- Counterexample to claim C4 as stated: with a malformed (empty-object)
payload on every attempt, all four backoffs run and attempt 5 also fails
transiently, yet the returned AuditRecord's response field is the raw
payload `{}`, not a synthesized error description. -/
theorem claim_c4_counterexample :
    isSynthesizedError
      ((requestForKeyWithBackoff (fun _ => FetchResult.ok (Json.obj []))
        "MMMMMM" 0 1).allIdsEntry.response) = false ∧
    (requestForKeyWithBackoff (fun _ => FetchResult.ok (Json.obj []))
      "MMMMMM" 0 1).sleeps = [2000, 4000, 8000, 16000] ∧
    (requestForKeyWithBackoff (fun _ => FetchResult.ok (Json.obj []))
      "MMMMMM" 0 1).allIdsEntry.response = Json.obj [] :=
  ⟨rfl, rfl, rfl⟩

/-- Claim C4 (amended): when every attempt fails transiently, attempt `n`
(for `n = 1..4`) is followed by a sleep of `2^n` seconds (2, 4, 8, 16 s,
modelled in ms) before the next attempt; there are at most
`maxAttempts = 5` attempts (at most 4 sleeps for any oracle); and when
attempt 5 also fails transiently the call returns with no further retry —
with a synthesized error description as the response when attempt 5 was a
network-level failure, and with the raw (malformed/empty) payload as the
response when attempt 5 returned such a payload. -/
theorem claim_c4_amended (fetch : Nat → FetchResult) (seq : String) (index : Nat)
    (h : ∀ a, 1 ≤ a → a ≤ 5 → transientResp (fetch a) = true) :
    (requestForKeyWithBackoff fetch seq index 1).sleeps = [2000, 4000, 8000, 16000] ∧
    (requestForKeyWithBackoff fetch seq index 1).successEntry = none ∧
    (∀ e, fetch 5 = FetchResult.err e →
      (requestForKeyWithBackoff fetch seq index 1).allIdsEntry.response =
        Json.obj [("error", Json.str ("Fallo tras " ++ toString maxAttempts ++
          " intentos: " ++ e))]) ∧
    (∀ j, fetch 5 = FetchResult.ok j →
      (requestForKeyWithBackoff fetch seq index 1).allIdsEntry.response = j) ∧
    (∀ g : Nat → FetchResult, (requestForKeyWithBackoff g seq index 1).sleeps.length ≤ 4) := by
  have hu := backoffAux_unroll fetch seq index 4 1 (fun a ha1 ha2 => h a ha1 (by omega))
  have h15 : (1 : Nat) + 4 = 5 := rfl
  rw [h15] at hu
  have hex := backoffAux_exhaust fetch seq index 5 (h 5 (by omega) (by omega))
  have hreq : requestForKeyWithBackoff fetch seq index 1 = backoffAux fetch seq index 1 4 := rfl
  refine ⟨?_, ?_, ?_, ?_, ?_⟩
  · rw [hreq, hu]
    rfl
  · rw [hreq, hu]
    exact hex.1
  · intro e he
    rw [hreq, hu]
    exact hex.2.1 e he
  · intro j hj
    rw [hreq, hu]
    exact hex.2.2 j hj
  · intro g
    exact backoffAux_sleeps_len g seq index 4 1

/-- Witness for C4 (amended) at a concrete oracle that throws a network
error on every attempt. -/
theorem claim_c4_amended_witness :
    (∀ a, 1 ≤ a → a ≤ 5 →
      transientResp ((fun _ => FetchResult.err "boom") a) = true) ∧
    (requestForKeyWithBackoff (fun _ => FetchResult.err "boom") "MMMMMM" 7 1).sleeps =
      [2000, 4000, 8000, 16000] ∧
    (requestForKeyWithBackoff (fun _ => FetchResult.err "boom") "MMMMMM" 7 1).allIdsEntry.response =
      Json.obj [("error", Json.str "Fallo tras 5 intentos: boom")] := by
  have hh : ∀ a, 1 ≤ a → a ≤ 5 →
      transientResp ((fun _ => FetchResult.err "boom") a) = true := fun _ _ _ => rfl
  have h := claim_c4_amended (fun _ => FetchResult.err "boom") "MMMMMM" 7 hh
  exact ⟨hh, h.1, (h.2.2.1 "boom" rfl).trans rfl⟩

theorem listStandby_claim (json : Json) :
    (listStandbyOf json).isSome = claimSuccessShape json := by
  unfold listStandbyOf claimSuccessShape
  cases hd : jsGet json "data" with
  | none => rfl
  | some d =>
      cases d with
      | null => rfl
      | bool b => cases b <;> rfl
      | num n =>
          by_cases hn : n = 0
          · simp [truthy, hn, jsGet]
          · simp [truthy, hn, jsGet]
      | str s =>
          by_cases hs : s = ""
          · simp [truthy, hs, jsGet]
          · simp [truthy, hs, jsGet]
      | arr xs => rfl
      | obj fields =>
          dsimp only [truthy]
          rw [if_pos rfl]
          cases hf : jsGet (Json.obj fields) "list_standby" with
          | none => rfl
          | some v => cases v <;> rfl

/-- Claim C5: response classification in priority order, on a constant
response payload: the success shape (an array at `data.list_standby`,
stated both as the source's guard and as the claim's wording,
`claimSuccessShape`) yields both records with no retry even when a
message field is also present; otherwise any string `message` field —
whether or not it contains the sentinel (matched case-insensitively in
`hasInvalidLiteralMsg`) — yields the AuditRecord only, with retry
suppressed; only payloads with neither shape are transient and retried. -/
theorem claim_c5 (json : Json) (seq : String) (index : Nat) :
    (requestForKeyWithBackoff (fun _ => FetchResult.ok json) seq index 1).successEntry =
      (listStandbyOf json).map
        (fun xs => { index := index, fullID := fixedPrefix ++ seq, data := xs }) ∧
    (requestForKeyWithBackoff (fun _ => FetchResult.ok json) seq index 1).sleeps =
      (if (listStandbyOf json).isSome || (msgOf json).isSome then []
        else [2000, 4000, 8000, 16000]) ∧
    (requestForKeyWithBackoff (fun _ => FetchResult.ok json) seq index 1).allIdsEntry.response =
      json ∧
    (listStandbyOf json).isSome = claimSuccessShape json := by
  refine ⟨?_, ?_, ?_, listStandby_claim json⟩ <;>
  · cases hls : listStandbyOf json with
    | some xs =>
        simp [requestForKeyWithBackoff, backoffAux, hls]
    | none =>
        cases hmsg : msgOf json with
        | some m =>
            by_cases hinv : hasInvalidLiteralMsg m
            · simp [requestForKeyWithBackoff, backoffAux, hls, hmsg, hinv]
            · simp [requestForKeyWithBackoff, backoffAux, hls, hmsg, hinv]
        | none =>
            have ht : ∀ a, 1 ≤ a → a < 1 + 4 →
                transientResp ((fun _ => FetchResult.ok json) a) = true := by
              intro a _ _
              simp [transientResp, hls, hmsg]
            have hu := backoffAux_unroll (fun _ => FetchResult.ok json) seq index 4 1 ht
            have hreq : requestForKeyWithBackoff (fun _ => FetchResult.ok json) seq index 1 =
                backoffAux (fun _ => FetchResult.ok json) seq index 1 4 := rfl
            rw [hreq, hu]
            simp [backoffAux, hls, hmsg]
            all_goals rfl

/-- Claim C6: the dispatcher never rejects: for every fetch oracle, key,
index and attempt number, the (total) `requestForKeyWithBackoff` resolves
to a value containing an `allIdsEntry` keyed by the full key with the
given index, and the scheduler's per-key wrapper `dispatchOf` always
fulfills (is never `null`/rejected). -/
theorem claim_c6 :
    (∀ fetch seq index attempt,
      (requestForKeyWithBackoff fetch seq index attempt).allIdsEntry.fullID =
        fixedPrefix ++ seq ∧
      (requestForKeyWithBackoff fetch seq index attempt).allIdsEntry.index = index) ∧
    (∀ fetch index seq, (dispatchOf fetch index seq).isSome = true) := by
  constructor
  · intro fetch seq index attempt
    unfold requestForKeyWithBackoff
    generalize maxAttempts - attempt = rem
    induction rem generalizing attempt with
    | zero =>
        unfold backoffAux
        cases fetch attempt with
        | ok json =>
            dsimp only
            cases listStandbyOf json with
            | some xs => exact ⟨rfl, rfl⟩
            | none =>
                dsimp only
                split
                · exact ⟨rfl, rfl⟩
                · split
                  · exact ⟨rfl, rfl⟩
                  · exact ⟨rfl, rfl⟩
        | err e => exact ⟨rfl, rfl⟩
    | succ r ih =>
        unfold backoffAux
        cases fetch attempt with
        | ok json =>
            dsimp only
            cases listStandbyOf json with
            | some xs => exact ⟨rfl, rfl⟩
            | none =>
                dsimp only
                split
                · exact ⟨rfl, rfl⟩
                · split
                  · exact ⟨rfl, rfl⟩
                  · exact ih (attempt + 1)
        | err e => exact ih (attempt + 1)
  · intro fetch index seq
    rfl

/-! ## Theorems: rotating NDJSON writer (C7, C8, C10) -/

theorem lookup_map_replace (l : List (Nat × List Char)) (n : Nat) (c : List Char)
    (h : (l.lookup n).isSome = true) :
    ((l.map fun p => if p.1 = n then (n, c) else p).lookup n) = some c := by
  induction l with
  | nil => simp [List.lookup] at h
  | cons p t ih =>
      obtain ⟨k, v⟩ := p
      simp only [List.map_cons]
      dsimp only
      by_cases hp : k = n
      · rw [if_pos hp, List.lookup_cons, beq_self_eq_true n]
      · rw [if_neg hp, List.lookup_cons]
        have hne : (n == k) = false := beq_eq_false_iff_ne.mpr (fun he => hp he.symm)
        rw [hne]
        rw [List.lookup_cons, hne] at h
        exact ih h

theorem lookup_map_replace_ne (l : List (Nat × List Char)) (n : Nat) (c : List Char)
    (m : Nat) (h : m ≠ n) :
    ((l.map fun p => if p.1 = n then (n, c) else p).lookup m) = l.lookup m := by
  induction l with
  | nil => simp
  | cons p t ih =>
      obtain ⟨k, v⟩ := p
      simp only [List.map_cons]
      dsimp only
      by_cases hp : k = n
      · rw [if_pos hp]
        have hne : (m == n) = false := beq_eq_false_iff_ne.mpr h
        rw [List.lookup_cons, hne, List.lookup_cons]
        rw [hp, hne]
        exact ih
      · rw [if_neg hp]
        rw [List.lookup_cons, List.lookup_cons]
        cases hm : (m == k) with
        | true => rfl
        | false => exact ih

theorem lookup_append_left (l1 l2 : List (Nat × List Char)) (n : Nat) (v : List Char)
    (h : l1.lookup n = some v) : (l1 ++ l2).lookup n = some v := by
  induction l1 with
  | nil => simp [List.lookup] at h
  | cons p t ih =>
      obtain ⟨k, w⟩ := p
      rw [List.cons_append]
      rw [List.lookup_cons] at h ⊢
      cases hm : (n == k) with
      | true => rw [hm] at h; exact h
      | false => rw [hm] at h; exact ih h

theorem lookup_append_right (l1 l2 : List (Nat × List Char)) (n : Nat)
    (h : l1.lookup n = none) : (l1 ++ l2).lookup n = l2.lookup n := by
  induction l1 with
  | nil => simp
  | cons p t ih =>
      obtain ⟨k, w⟩ := p
      rw [List.cons_append]
      rw [List.lookup_cons] at h ⊢
      cases hm : (n == k) with
      | true => rw [hm] at h; exact Option.noConfusion h
      | false => rw [hm] at h; exact ih h

theorem lookup_setPart_self (d : DiskDir) (n : Nat) (c : List Char) :
    lookupPart (setPart d n c) n = some c := by
  unfold lookupPart setPart
  by_cases h : (d.parts.lookup n).isSome
  · rw [if_pos h]
    exact lookup_map_replace d.parts n c h
  · rw [if_neg h]
    have hn : d.parts.lookup n = none := Option.not_isSome_iff_eq_none.mp h
    show ((d.parts ++ [(n, c)]).lookup n) = some c
    rw [lookup_append_right _ _ _ hn]
    rw [List.lookup_cons, beq_self_eq_true n]

theorem lookup_setPart_ne (d : DiskDir) (n : Nat) (c : List Char) (m : Nat)
    (h : m ≠ n) : lookupPart (setPart d n c) m = lookupPart d m := by
  unfold lookupPart setPart
  by_cases hs : (d.parts.lookup n).isSome
  · rw [if_pos hs]
    exact lookup_map_replace_ne d.parts n c m h
  · rw [if_neg hs]
    show ((d.parts ++ [(n, c)]).lookup m) = d.parts.lookup m
    cases hm : d.parts.lookup m with
    | some v => exact lookup_append_left _ _ _ _ hm
    | none =>
        rw [lookup_append_right _ _ _ hm]
        have hne : (m == n) = false := beq_eq_false_iff_ne.mpr h
        rw [List.lookup_cons, hne]
        rfl

theorem setPart_keys_le (d : DiskDir) (n : Nat) (c : List Char) (K : Nat)
    (hd : ∀ p ∈ d.parts, p.1 ≤ K) (hn : n ≤ K) :
    ∀ p ∈ (setPart d n c).parts, p.1 ≤ K := by
  unfold setPart
  by_cases hs : (d.parts.lookup n).isSome
  · rw [if_pos hs]
    intro p hp
    simp only [List.mem_map] at hp
    obtain ⟨q, hq, hqe⟩ := hp
    by_cases hq1 : q.1 = n
    · rw [if_pos hq1] at hqe
      rw [← hqe]
      exact hn
    · rw [if_neg hq1] at hqe
      rw [← hqe]
      exact hd q hq
  · rw [if_neg hs]
    intro p hp
    simp only [List.mem_append, List.mem_singleton] at hp
    cases hp with
    | inl hin => exact hd p hin
    | inr heq => rw [heq]; exact hn

theorem foldr_max_ge (l : List (Nat × List Char)) :
    ∀ p ∈ l, p.1 ≤ l.foldr (fun p acc => max p.1 acc) 0 := by
  induction l with
  | nil => simp
  | cons q t ih =>
      intro p hp
      simp only [List.mem_cons] at hp
      simp only [List.foldr_cons]
      cases hp with
      | inl he => rw [he]; exact le_max_left _ _
      | inr ht => exact le_trans (ih p ht) (le_max_right _ _)

theorem foldr_max_le (l : List (Nat × List Char)) (K : Nat)
    (h : ∀ p ∈ l, p.1 ≤ K) : l.foldr (fun p acc => max p.1 acc) 0 ≤ K := by
  induction l with
  | nil => simp
  | cons q t ih =>
      simp only [List.foldr_cons]
      exact max_le (h q (by simp)) (ih (fun p hp => h p (by simp [hp])))

theorem foldr_max_attained (l : List (Nat × List Char)) :
    l.foldr (fun p acc => max p.1 acc) 0 = 0 ∨
      ∃ v, (l.foldr (fun p acc => max p.1 acc) 0, v) ∈ l := by
  induction l with
  | nil => left; rfl
  | cons q t ih =>
      simp only [List.foldr_cons]
      rcases max_choice q.1 (t.foldr (fun p acc => max p.1 acc) 0) with hm | hm
      · rw [hm]
        right
        exact ⟨q.2, by simp⟩
      · rw [hm]
        rcases ih with h0 | ⟨v, hv⟩
        · left; exact h0
        · right; exact ⟨v, by simp [hv]⟩

theorem lookup_isSome_mem (l : List (Nat × List Char)) (n : Nat)
    (h : (l.lookup n).isSome = true) : ∃ v, (n, v) ∈ l := by
  induction l with
  | nil => simp [List.lookup] at h
  | cons p t ih =>
      obtain ⟨k, v⟩ := p
      rw [List.lookup_cons] at h
      cases hm : (n == k) with
      | true =>
          have : n = k := by simpa using hm
          exact ⟨v, by simp [this]⟩
      | false =>
          rw [hm] at h
          obtain ⟨w, hw⟩ := ih h
          exact ⟨w, by simp [hw]⟩

theorem mem_lookup_isSome (l : List (Nat × List Char)) (n : Nat) (v : List Char)
    (h : (n, v) ∈ l) : (l.lookup n).isSome = true := by
  induction l with
  | nil => simp at h
  | cons p t ih =>
      obtain ⟨k, w⟩ := p
      rw [List.lookup_cons]
      simp only [List.mem_cons] at h
      cases h with
      | inl he =>
          have : n = k := by
            have := congrArg Prod.fst he
            exact this
          rw [this, beq_self_eq_true k]
          rfl
      | inr ht =>
          cases hm : (n == k) with
          | true => rfl
          | false => exact ih ht

theorem utf8Len_append (a b : List Char) :
    utf8Len (a ++ b) = utf8Len a + utf8Len b := by
  unfold utf8Len
  rw [List.map_append, List.sum_append]

theorem countFileLines_append (a b : List Char) :
    countFileLines (a ++ b) = countFileLines a + countFileLines b := by
  unfold countFileLines
  rw [List.countP_append]

theorem joinSep_count :
    ∀ ls : List (List Char), (∀ l ∈ ls, countFileLines l = 0) →
      countFileLines (joinSep ls) = ls.length - 1
  | [] => by intro _; simp [joinSep, countFileLines]
  | [l] => by
      intro h
      simp only [joinSep, List.length_singleton]
      exact h l (by simp)
  | l :: l' :: t => by
      intro h
      have h1 : countFileLines l = 0 := h l (by simp)
      have h2 := joinSep_count (l' :: t) (fun x hx => h x (by simp [hx]))
      show countFileLines (l ++ '\n' :: joinSep (l' :: t)) = (l :: l' :: t).length - 1
      rw [countFileLines_append, h1]
      have hcons : countFileLines ('\n' :: joinSep (l' :: t)) =
          countFileLines (joinSep (l' :: t)) + 1 := by
        unfold countFileLines
        rw [List.countP_cons]
        simp
      rw [hcons, h2]
      simp only [List.length_cons]
      omega

theorem countFileLines_joinNl (ls : List (List Char))
    (h : ∀ l ∈ ls, countFileLines l = 0) (hne : ls ≠ []) :
    countFileLines (joinNl ls) = ls.length := by
  unfold joinNl
  rw [countFileLines_append, joinSep_count ls h]
  have h1 : countFileLines ['\n'] = 1 := rfl
  rw [h1]
  cases ls with
  | nil => exact absurd rfl hne
  | cons a t => simp

theorem lookupPart_flushMeta (st : MetaState) (d : DiskDir) (n : Nat) :
    lookupPart (flushMeta st d) n = lookupPart d n := rfl

theorem lookupPart_none_of_gt (st : MetaState) (d : DiskDir)
    (hb : ∀ p ∈ d.parts, p.1 ≤ st.part) (n : Nat) (hn : st.part < n) :
    lookupPart d n = none := by
  cases hl : lookupPart d n with
  | none => rfl
  | some c =>
      have hs : (d.parts.lookup n).isSome = true := by
        unfold lookupPart at hl
        rw [hl]
        rfl
      obtain ⟨v, hv⟩ := lookup_isSome_mem d.parts n hs
      have := hb (n, v) hv
      omega

theorem inv_recover (d : DiskDir) :
    WriterInv (recoverStateFromDisk d).1 (recoverStateFromDisk d).2 := by
  unfold recoverStateFromDisk
  by_cases h : findLatestPartNumber d = 0
  · rw [if_pos h]
    refine ⟨Nat.le_refl 1, ?_, ?_, ?_, ?_⟩
    · show (lookupPart (flushMeta _ (setPart d 1 [])) 1).isSome = true
      rw [lookupPart_flushMeta, lookup_setPart_self]
      rfl
    · show (0 : Nat) = utf8Len (partContent (flushMeta _ (setPart d 1 [])) 1)
      unfold partContent
      rw [lookupPart_flushMeta, lookup_setPart_self]
      rfl
    · show (0 : Nat) = countFileLines (partContent (flushMeta _ (setPart d 1 [])) 1)
      unfold partContent
      rw [lookupPart_flushMeta, lookup_setPart_self]
      rfl
    · show ∀ p ∈ (flushMeta _ (setPart d 1 [])).parts, p.1 ≤ 1
      have hb : ∀ p ∈ d.parts, p.1 ≤ 1 := by
        intro p hp
        have := foldr_max_ge d.parts p hp
        unfold findLatestPartNumber at h
        omega
      exact setPart_keys_le d 1 [] 1 hb (Nat.le_refl 1)
  · rw [if_neg h]
    unfold WriterInv
    dsimp only
    rcases foldr_max_attained d.parts with h0 | ⟨v, hv⟩
    · exact absurd h0 h
    · refine ⟨?_, ?_, rfl, rfl, ?_⟩
      · omega
      · show (lookupPart (flushMeta _ d) (findLatestPartNumber d)).isSome = true
        rw [lookupPart_flushMeta]
        exact mem_lookup_isSome d.parts _ v hv
      · show ∀ p ∈ (flushMeta _ d).parts, p.1 ≤ findLatestPartNumber d
        exact fun p hp => foldr_max_ge d.parts p hp

theorem rotate_eq (st : MetaState) (d : DiskDir) (hinv : WriterInv st d) :
    rotate st d = ({ part := st.part + 1, lines := 0, bytes := 0 },
      flushMeta { part := st.part + 1, lines := 0, bytes := 0 }
        (setPart d (st.part + 1) [])) := by
  have hnone : lookupPart d (st.part + 1) = none :=
    lookupPart_none_of_gt st d hinv.2.2.2.2 (st.part + 1) (by omega)
  unfold rotate
  dsimp only
  rw [hnone]
  rfl

theorem inv_rotate (st : MetaState) (d : DiskDir) (hinv : WriterInv st d) :
    WriterInv (rotate st d).1 (rotate st d).2 := by
  rw [rotate_eq st d hinv]
  unfold WriterInv
  dsimp only
  refine ⟨by omega, ?_, ?_, ?_, ?_⟩
  · show (lookupPart (flushMeta _ (setPart d (st.part + 1) [])) (st.part + 1)).isSome = true
    rw [lookupPart_flushMeta, lookup_setPart_self]
    rfl
  · show (0 : Nat) = utf8Len (partContent (flushMeta _ (setPart d (st.part + 1) [])) (st.part + 1))
    unfold partContent
    rw [lookupPart_flushMeta, lookup_setPart_self]
    rfl
  · show (0 : Nat) = countFileLines (partContent (flushMeta _ (setPart d (st.part + 1) [])) (st.part + 1))
    unfold partContent
    rw [lookupPart_flushMeta, lookup_setPart_self]
    rfl
  · show ∀ p ∈ (flushMeta _ (setPart d (st.part + 1) [])).parts, p.1 ≤ st.part + 1
    exact setPart_keys_le d (st.part + 1) [] (st.part + 1)
      (fun p hp => le_trans (hinv.2.2.2.2 p hp) (by omega)) (Nat.le_refl _)

theorem inv_append {α : Type} (ser : α → List Char) (opts : RotateOptions)
    (st : MetaState) (d : DiskDir) (objs : List α)
    (hinv : WriterInv st d) (hser : ∀ o ∈ objs, countFileLines (ser o) = 0) :
    WriterInv (appendBatch ser opts st d objs).1 (appendBatch ser opts st d objs).2 := by
  cases objs with
  | nil => exact hinv
  | cons o t =>
      have hner : WriterInv
          (if needsRotate opts st (utf8Len (joinNl ((o :: t).map ser))) (o :: t).length
            then rotate st d else (st, d)).1
          (if needsRotate opts st (utf8Len (joinNl ((o :: t).map ser))) (o :: t).length
            then rotate st d else (st, d)).2 := by
        split
        · exact inv_rotate st d hinv
        · exact hinv
      have hcount : countFileLines (joinNl ((o :: t).map ser)) = (o :: t).length := by
        rw [countFileLines_joinNl]
        · rw [List.length_map]
        · intro l hl
          rw [List.mem_map] at hl
          obtain ⟨x, hx, he⟩ := hl
          rw [← he]
          exact hser x hx
        · simp
      unfold appendBatch
      dsimp only
      set R := if needsRotate opts st (utf8Len (joinNl ((o :: t).map ser))) (o :: t).length
          then rotate st d else (st, d) with hRdef
      obtain ⟨hi1, hi2, hi3, hi4, hi5⟩ := hner
      have hcontent : lookupPart (appendToPart R.2 R.1.part (joinNl ((o :: t).map ser)))
          R.1.part = some (partContent R.2 R.1.part ++ joinNl ((o :: t).map ser)) := by
        unfold appendToPart
        exact lookup_setPart_self _ _ _
      refine ⟨hi1, ?_, ?_, ?_, ?_⟩
      · show (lookupPart (flushMeta _ _) R.1.part).isSome = true
        rw [lookupPart_flushMeta, hcontent]
        rfl
      · show R.1.bytes + utf8Len (joinNl ((o :: t).map ser)) =
          utf8Len (partContent (flushMeta _ _) R.1.part)
        unfold partContent
        rw [lookupPart_flushMeta, hcontent]
        show _ = utf8Len (partContent R.2 R.1.part ++ joinNl ((o :: t).map ser))
        rw [utf8Len_append, ← hi3]
      · show R.1.lines + (o :: t).length =
          countFileLines (partContent (flushMeta _ _) R.1.part)
        unfold partContent
        rw [lookupPart_flushMeta, hcontent]
        show _ = countFileLines (partContent R.2 R.1.part ++ joinNl ((o :: t).map ser))
        rw [countFileLines_append, ← hi4, hcount]
      · show ∀ p ∈ (flushMeta _ (appendToPart R.2 R.1.part _)).parts, p.1 ≤ R.1.part
        unfold appendToPart
        exact setPart_keys_le R.2 R.1.part _ R.1.part hi5 (Nat.le_refl _)

theorem findLatest_of_inv (st : MetaState) (d : DiskDir) (hinv : WriterInv st d) :
    findLatestPartNumber d = st.part := by
  have hle : d.parts.foldr (fun p acc => max p.1 acc) 0 ≤ st.part :=
    foldr_max_le _ _ hinv.2.2.2.2
  obtain ⟨v, hv⟩ := lookup_isSome_mem d.parts st.part hinv.2.1
  have hge := foldr_max_ge d.parts (st.part, v) hv
  unfold findLatestPartNumber
  omega

theorem recover_of_inv (st : MetaState) (d : DiskDir) (m : Option MetaState)
    (hinv : WriterInv st d) : (recoverStateFromDisk (setMeta d m)).1 = st := by
  have hlat : findLatestPartNumber (setMeta d m) = st.part := findLatest_of_inv st d hinv
  unfold recoverStateFromDisk
  dsimp only
  rw [hlat]
  have hne : ¬ (st.part = 0) := by
    have := hinv.1
    omega
  rw [if_neg hne]
  have hpc : partContent (setMeta d m) st.part = partContent d st.part := rfl
  dsimp only
  rw [hpc]
  obtain ⟨hp1, hps, hb, hl, hbd⟩ := hinv
  cases st with
  | mk part lines bytes =>
      dsimp only at hb hl ⊢
      rw [MetaState.mk.injEq]
      exact ⟨rfl, hl.symm, hb.symm⟩

/-- Claim C10: the in-memory writer state always mirrors the current part
file exactly — `recoverStateFromDisk` establishes the invariant `WriterInv`
(state fields equal the current part's UTF-8 byte length and newline
count, the current part exists, and it is the highest-numbered part) over
any disk, and every `appendBatch` by a single in-order caller (with a
serializer that emits no raw newline, as `JSON.stringify` does) preserves
it, rotation included. -/
theorem claim_c10 :
    (∀ d : DiskDir, WriterInv (recoverStateFromDisk d).1 (recoverStateFromDisk d).2) ∧
    (∀ (α : Type) (ser : α → List Char) (opts : RotateOptions) (st : MetaState)
        (d : DiskDir) (objs : List α), WriterInv st d →
      (∀ o ∈ objs, countFileLines (ser o) = 0) →
      WriterInv (appendBatch ser opts st d objs).1 (appendBatch ser opts st d objs).2) :=
  ⟨inv_recover, fun _ ser opts st d objs h1 h2 => inv_append ser opts st d objs h1 h2⟩

/-- Witness for C10: recovery over a one-part disk, and an append of one
record `"ab"` to a live writer, both concretely satisfy the invariant. -/
theorem claim_c10_witness :
    WriterInv (recoverStateFromDisk ⟨[(1, ['x', '\n'])], none⟩).1
      (recoverStateFromDisk ⟨[(1, ['x', '\n'])], none⟩).2 ∧
    WriterInv
      (appendBatch (fun s : String => s.data) ⟨4, 10⟩ ⟨1, 1, 2⟩
        ⟨[(1, ['x', '\n'])], none⟩ ["ab"]).1
      (appendBatch (fun s : String => s.data) ⟨4, 10⟩ ⟨1, 1, 2⟩
        ⟨[(1, ['x', '\n'])], none⟩ ["ab"]).2 :=
  ⟨claim_c10.1 ⟨[(1, ['x', '\n'])], none⟩,
    claim_c10.2 String (fun s => s.data) ⟨4, 10⟩ ⟨1, 1, 2⟩
      ⟨[(1, ['x', '\n'])], none⟩ ["ab"] (by decide) (by decide)⟩

/-- Claim C7: for a non-empty batch that triggers `needsRotate` (by bytes
or lines — including a batch that alone exceeds the cap, since nothing
below restricts the batch size), the rotation decision is made once before
writing: the writer moves to part `part+1` and the entire serialized batch
is the new part's content; the prior part's content (hence its byte size)
is unchanged; and `appendBatch` on an empty batch is a no-op. -/
theorem claim_c7 :
    (∀ (α : Type) (ser : α → List Char) (opts : RotateOptions) (st : MetaState)
        (d : DiskDir) (objs : List α),
      objs ≠ [] →
      needsRotate opts st (utf8Len (joinNl (objs.map ser))) objs.length = true →
      WriterInv st d →
      (appendBatch ser opts st d objs).1.part = st.part + 1 ∧
      partContent (appendBatch ser opts st d objs).2 (st.part + 1) =
        joinNl (objs.map ser) ∧
      lookupPart (appendBatch ser opts st d objs).2 st.part = lookupPart d st.part ∧
      utf8Len (partContent (appendBatch ser opts st d objs).2 st.part) =
        utf8Len (partContent d st.part)) ∧
    (∀ (α : Type) (ser : α → List Char) (opts : RotateOptions) (st : MetaState)
        (d : DiskDir), appendBatch ser opts st d [] = (st, d)) := by
  constructor
  · intro α ser opts st d objs h1 h2 hinv
    cases objs with
    | nil => exact absurd rfl h1
    | cons o t =>
        unfold appendBatch
        dsimp only
        rw [if_pos h2]
        rw [rotate_eq st d hinv]
        dsimp only
        have hprior : lookupPart
            (appendToPart (flushMeta ⟨st.part + 1, 0, 0⟩ (setPart d (st.part + 1) []))
              (st.part + 1) (joinNl ((o :: t).map ser))) st.part =
            lookupPart d st.part := by
          unfold appendToPart
          rw [lookup_setPart_ne _ _ _ _ (by omega), lookupPart_flushMeta,
            lookup_setPart_ne _ _ _ _ (by omega)]
        have hnew : lookupPart
            (appendToPart (flushMeta ⟨st.part + 1, 0, 0⟩ (setPart d (st.part + 1) []))
              (st.part + 1) (joinNl ((o :: t).map ser))) (st.part + 1) =
            some (joinNl ((o :: t).map ser)) := by
          unfold appendToPart
          have hbase : partContent (flushMeta ⟨st.part + 1, 0, 0⟩
              (setPart d (st.part + 1) [])) (st.part + 1) = [] := by
            unfold partContent
            rw [lookupPart_flushMeta, lookup_setPart_self]
            rfl
          rw [hbase]
          rw [List.nil_append]
          exact lookup_setPart_self _ _ _
        refine ⟨rfl, ?_, ?_, ?_⟩
        · unfold partContent
          rw [lookupPart_flushMeta, hnew]
          rfl
        · rw [lookupPart_flushMeta, hprior]
        · unfold partContent
          rw [lookupPart_flushMeta, hprior]
  · intro α ser opts st d
    rfl

/-- Witness for C7: a one-record batch whose serialized form (6 bytes)
alone exceeds the 4-byte cap is still written whole into the fresh part 2,
leaving part 1 untouched; plus the empty-batch no-op. -/
theorem claim_c7_witness :
    (["cdefg"] ≠ ([] : List String)) ∧
    (appendBatch (fun s : String => s.data) ⟨4, 10⟩ ⟨1, 1, 3⟩
      ⟨[(1, ['a', 'b', '\n'])], none⟩ ["cdefg"]).1.part = 2 ∧
    partContent (appendBatch (fun s : String => s.data) ⟨4, 10⟩ ⟨1, 1, 3⟩
      ⟨[(1, ['a', 'b', '\n'])], none⟩ ["cdefg"]).2 2 =
      ['c', 'd', 'e', 'f', 'g', '\n'] ∧
    appendBatch (fun s : String => s.data) ⟨4, 10⟩ ⟨1, 1, 3⟩
      ⟨[(1, ['a', 'b', '\n'])], none⟩ ([] : List String) =
      (⟨1, 1, 3⟩, ⟨[(1, ['a', 'b', '\n'])], none⟩) := by
  have h := claim_c7.1 String (fun s => s.data) ⟨4, 10⟩ ⟨1, 1, 3⟩
    ⟨[(1, ['a', 'b', '\n'])], none⟩ ["cdefg"] (by decide) (by decide) (by decide)
  refine ⟨by decide, h.1, ?_, claim_c7.2 String (fun s => s.data) ⟨4, 10⟩ ⟨1, 1, 3⟩
    ⟨[(1, ['a', 'b', '\n'])], none⟩⟩
  rw [h.2.1]
  rfl

/-- Counterexample to claim C8 as stated: writing 2 records across one
rotation (caps 4 bytes per part) leaves two non-empty parts; a fresh
`recoverStateFromDisk` reports the lines (1) and bytes (3) of the highest
part only, not the totals on disk (2 lines, 6 bytes). -/
theorem claim_c8_counterexample :
    let ser := fun s : String => s.data
    let opts : RotateOptions := ⟨4, 500000⟩
    let s0 := recoverStateFromDisk ⟨[], none⟩
    let s1 := appendBatch ser opts s0.1 s0.2 ["ab"]
    let s2 := appendBatch ser opts s1.1 s1.2 ["cd"]
    let r := (recoverStateFromDisk s2.2).1
    ¬ (r.lines = totalLines s2.2 ∧ r.bytes = totalBytes s2.2) ∧
    r.lines = 1 ∧ totalLines s2.2 = 2 ∧ r.bytes = 3 ∧ totalBytes s2.2 = 6 := by
  decide

/-- Claim C8 (amended): after `appendBatch` writes a batch (across a
rotation or not) into a directory holding a live writer state, a fresh
`recoverStateFromDisk` — run with the advisory metadata file replaced by
an arbitrary value `m`, which it must and does ignore — reproduces the
writer's state exactly: it selects the maximum part number and re-derives
that part's byte size from the file and its line count by a literal
newline scan; the reported counts are those of the highest-numbered part
(not totals across parts, which is what the original claim asserted). -/
theorem claim_c8_amended (α : Type) (ser : α → List Char) (opts : RotateOptions)
    (st : MetaState) (d : DiskDir) (objs : List α) (m : Option MetaState)
    (hinv : WriterInv st d) (hser : ∀ o ∈ objs, countFileLines (ser o) = 0) :
    (recoverStateFromDisk (setMeta (appendBatch ser opts st d objs).2 m)).1 =
      (appendBatch ser opts st d objs).1 ∧
    (recoverStateFromDisk (setMeta (appendBatch ser opts st d objs).2 m)).1.part =
      findLatestPartNumber (appendBatch ser opts st d objs).2 ∧
    (recoverStateFromDisk (setMeta (appendBatch ser opts st d objs).2 m)).1.bytes =
      utf8Len (partContent (appendBatch ser opts st d objs).2
        (findLatestPartNumber (appendBatch ser opts st d objs).2)) ∧
    (recoverStateFromDisk (setMeta (appendBatch ser opts st d objs).2 m)).1.lines =
      countFileLines (partContent (appendBatch ser opts st d objs).2
        (findLatestPartNumber (appendBatch ser opts st d objs).2)) := by
  have hinv' := inv_append ser opts st d objs hinv hser
  have hrec := recover_of_inv _ _ m hinv'
  have hlat := findLatest_of_inv _ _ hinv'
  obtain ⟨hp1, hps, hb, hl, hbd⟩ := hinv'
  refine ⟨hrec, ?_, ?_, ?_⟩
  · rw [hrec, hlat]
  · rw [hrec, hlat]
    exact hb
  · rw [hrec, hlat]
    exact hl

/-- Witness for C8 (amended): appending `"cd"` to a live writer over a
full 3-byte part 1 rotates to part 2; recovery with a tampered metadata
file still reports part 2 with 1 line and 3 bytes. -/
theorem claim_c8_amended_witness :
    WriterInv ⟨1, 1, 3⟩ ⟨[(1, ['a', 'b', '\n'])], none⟩ ∧
    (recoverStateFromDisk (setMeta (appendBatch (fun s : String => s.data) ⟨4, 500000⟩
        ⟨1, 1, 3⟩ ⟨[(1, ['a', 'b', '\n'])], none⟩ ["cd"]).2
      (some ⟨99, 99, 99⟩))).1 =
      (appendBatch (fun s : String => s.data) ⟨4, 500000⟩ ⟨1, 1, 3⟩
        ⟨[(1, ['a', 'b', '\n'])], none⟩ ["cd"]).1 := by
  refine ⟨by decide, ?_⟩
  exact (claim_c8_amended String (fun s => s.data) ⟨4, 500000⟩ ⟨1, 1, 3⟩
    ⟨[(1, ['a', 'b', '\n'])], none⟩ ["cd"] (some ⟨99, 99, 99⟩)
    (by decide) (by decide)).1

/-! ## Theorems: checkpoint read and scheduler skip/resume (C9) -/

theorem sched_dispatch_ge (orc : Nat → String → Option BackoffResult) (B SI : Nat) :
    ∀ (seqs : List String) (index : Nat) (pending : List (Option BackoffResult))
      (i : Nat) (s : String),
      Event.dispatch i s ∈ schedLoop orc B SI seqs index pending →
      SI ≤ i ∧ index ≤ i := by
  intro seqs
  induction seqs with
  | nil =>
      intro index pending i s h
      unfold schedLoop at h
      by_cases hp : pending.isEmpty
      · rw [if_pos hp] at h
        simp at h
      · rw [if_neg hp] at h
        simp [flushEvents] at h
  | cons s0 rest ih =>
      intro index pending i s h
      unfold schedLoop at h
      by_cases hlt : index < SI
      · rw [if_pos hlt] at h
        have := ih (index + 1) pending i s h
        exact ⟨this.1, by omega⟩
      · rw [if_neg hlt] at h
        dsimp only at h
        by_cases hfull : (pending ++ [orc index s0]).length = B
        · rw [if_pos hfull] at h
          rcases List.mem_cons.mp h with he | hm
          · injection he with h1 h2
            subst h1
            exact ⟨by omega, by omega⟩
          · rcases List.mem_append.mp hm with hf | ht
            · simp [flushEvents] at hf
            · have := ih (index + 1) [] i s ht
              exact ⟨this.1, by omega⟩
        · rw [if_neg hfull] at h
          rcases List.mem_cons.mp h with he | ht
          · injection he with h1 h2
            subst h1
            exact ⟨by omega, by omega⟩
          · have := ih (index + 1) (pending ++ [orc index s0]) i s ht
            exact ⟨this.1, by omega⟩

theorem sched_first_dispatch (orc : Nat → String → Option BackoffResult) (B SI : Nat) :
    ∀ (seqs : List String) (index : Nat) (pending : List (Option BackoffResult)),
      index ≤ SI → SI < index + seqs.length →
      ∃ s, Event.dispatch SI s ∈ schedLoop orc B SI seqs index pending := by
  intro seqs
  induction seqs with
  | nil =>
      intro index pending h1 h2
      simp at h2
      exact absurd h2 (by omega)
  | cons s0 rest ih =>
      intro index pending h1 h2
      unfold schedLoop
      by_cases hlt : index < SI
      · rw [if_pos hlt]
        refine ih (index + 1) pending (by omega) ?_
        simp at h2 ⊢
        omega
      · rw [if_neg hlt]
        have hSI : SI = index := by omega
        dsimp only
        by_cases hfull : (pending ++ [orc index s0]).length = B
        · rw [if_pos hfull]
          exact ⟨s0, by rw [hSI]; exact List.mem_cons_self _ _⟩
        · rw [if_neg hfull]
          exact ⟨s0, by rw [hSI]; exact List.mem_cons_self _ _⟩

/-- Claim C9: `readProgressIndex` returns 0 when the checkpoint file is
missing or unparseable (modelled as `none`), when the `lastIndex` field
coerces to NaN (`jsToNumber = none`), or when it is negative; and for any
recovered checkpoint `SI`, a run dispatches no GlobalIndex below `SI` and
(when the keyspace extends past `SI`) dispatches index `SI` itself, i.e.
it skips every index below the checkpoint and begins dispatch exactly
there. -/
theorem claim_c9 :
    readProgressIndex none = 0 ∧
    (∀ parsed j, jsGet parsed "lastIndex" = some j → jsToNumber j = none →
      readProgressIndex (some parsed) = 0) ∧
    (∀ parsed j n, jsGet parsed "lastIndex" = some j → jsToNumber j = some n →
      n < 0 → readProgressIndex (some parsed) = 0) ∧
    (∀ orc B SI seqs i s, Event.dispatch i s ∈ schedLoop orc B SI seqs 0 [] → SI ≤ i) ∧
    (∀ orc B SI (seqs : List String), SI < seqs.length →
      ∃ s, Event.dispatch SI s ∈ schedLoop orc B SI seqs 0 []) := by
  refine ⟨rfl, ?_, ?_, ?_, ?_⟩
  · intro parsed j h1 h2
    unfold readProgressIndex
    dsimp only
    rw [h1]
    cases j with
    | null => exact absurd h2 (by simp [jsToNumber])
    | bool b => dsimp only; rw [h2]
    | num n => dsimp only; rw [h2]
    | str s => dsimp only; rw [h2]
    | arr xs => dsimp only; rw [h2]
    | obj fields => dsimp only; rw [h2]
  · intro parsed j n h1 h2 h3
    unfold readProgressIndex
    dsimp only
    rw [h1]
    cases j with
    | null =>
        have h0 : (0 : Int) = n := by simpa [jsToNumber] using h2
        exact absurd h3 (by omega)
    | bool b => dsimp only; rw [h2]; dsimp only; rw [if_neg (not_le.mpr h3)]
    | num k => dsimp only; rw [h2]; dsimp only; rw [if_neg (not_le.mpr h3)]
    | str s => dsimp only; rw [h2]; dsimp only; rw [if_neg (not_le.mpr h3)]
    | arr xs => dsimp only; rw [h2]; dsimp only; rw [if_neg (not_le.mpr h3)]
    | obj fields => dsimp only; rw [h2]; dsimp only; rw [if_neg (not_le.mpr h3)]
  · intro orc B SI seqs i s h
    exact (sched_dispatch_ge orc B SI seqs 0 [] i s h).1
  · intro orc B SI seqs h
    exact sched_first_dispatch orc B SI seqs 0 [] (by omega) (by omega)

/-- Witness for C9 at concrete inputs: a checkpoint file with a
non-numeric `lastIndex`, one with a negative `lastIndex`, and a 3-key run
resuming from checkpoint 2 (which dispatches index 2 and nothing below). -/
theorem claim_c9_witness :
    readProgressIndex (some (Json.obj [("lastIndex", Json.str "abc")])) = 0 ∧
    readProgressIndex (some (Json.obj [("lastIndex", Json.num (-3))])) = 0 ∧
    (∃ s, Event.dispatch 2 s ∈
      schedLoop (fun i _ => some ⟨⟨"k", i, Json.null⟩, none, []⟩) 2 2
        ["MMMMMM", "MMMMMN", "MMMMMO"] 0 []) := by
  refine ⟨?_, ?_, ?_⟩
  · exact claim_c9.2.1 (Json.obj [("lastIndex", Json.str "abc")]) (Json.str "abc") rfl rfl
  · exact claim_c9.2.2.1 (Json.obj [("lastIndex", Json.num (-3))]) (Json.num (-3)) (-3)
      rfl rfl (by omega)
  · exact claim_c9.2.2.2.2 (fun i _ => some ⟨⟨"k", i, Json.null⟩, none, []⟩) 2 2
      ["MMMMMM", "MMMMMN", "MMMMMO"] (by simp)

/-! ## Theorems: window write ordering (C3) -/

theorem sched_ckpt_ge (orc : Nat → String → Option BackoffResult) (B SI : Nat) :
    ∀ (seqs : List String) (index : Nat) (pending : List (Option BackoffResult)) (c : Nat),
      Event.checkpoint c ∈ schedLoop orc B SI seqs index pending → index ≤ c := by
  intro seqs
  induction seqs with
  | nil =>
      intro index pending c h
      unfold schedLoop at h
      by_cases hp : pending.isEmpty
      · rw [if_pos hp] at h
        simp at h
      · rw [if_neg hp] at h
        simp [flushEvents] at h
        omega
  | cons s0 rest ih =>
      intro index pending c h
      unfold schedLoop at h
      by_cases hlt : index < SI
      · rw [if_pos hlt] at h
        have := ih (index + 1) pending c h
        omega
      · rw [if_neg hlt] at h
        dsimp only at h
        by_cases hfull : (pending ++ [orc index s0]).length = B
        · rw [if_pos hfull] at h
          rcases List.mem_cons.mp h with he | hm
          · exact Event.noConfusion he
          · rcases List.mem_append.mp hm with hf | ht
            · simp [flushEvents] at hf
              omega
            · have := ih (index + 1) [] c ht
              omega
        · rw [if_neg hfull] at h
          rcases List.mem_cons.mp h with he | ht
          · exact Event.noConfusion he
          · have := ih (index + 1) (pending ++ [orc index s0]) c ht
            omega

theorem sched_ckpt_writes (orc : Nat → String → Option BackoffResult) (B SI : Nat) :
    ∀ (seqs : List String) (index : Nat) (pending : List (Option BackoffResult))
      (pre : List Event) (c : Nat) (post : List Event),
      schedLoop orc B SI seqs index pending = pre ++ Event.checkpoint c :: post →
      ∃ pre0 ab sb, pre = pre0 ++ [Event.appendAudit ab, Event.appendSuccess sb] := by
  intro seqs
  induction seqs with
  | nil =>
      intro index pending pre c post h
      unfold schedLoop at h
      by_cases hp : pending.isEmpty
      · rw [if_pos hp] at h
        exact absurd h.symm (by simp)
      · rw [if_neg hp] at h
        simp only [flushEvents] at h
        rcases pre with _ | ⟨e1, _ | ⟨e2, _ | ⟨e3, pre3⟩⟩⟩
        · simp at h
        · simp at h
        · simp at h
          exact ⟨[], _, _, by rw [h.1, h.2.1]; rfl⟩
        · simp at h
  | cons s0 rest ih =>
      intro index pending pre c post h
      unfold schedLoop at h
      by_cases hlt : index < SI
      · rw [if_pos hlt] at h
        exact ih (index + 1) pending pre c post h
      · rw [if_neg hlt] at h
        dsimp only at h
        by_cases hfull : (pending ++ [orc index s0]).length = B
        · rw [if_pos hfull] at h
          simp only [flushEvents, List.cons_append, List.nil_append] at h
          rcases pre with _ | ⟨e1, _ | ⟨e2, _ | ⟨e3, _ | ⟨e4, pre4⟩⟩⟩⟩
          · simp at h
          · simp at h
          · simp at h
          · simp at h
            exact ⟨[Event.dispatch index s0], _, _, by rw [h.1, h.2.1, h.2.2.1]; rfl⟩
          · simp only [List.cons_append, List.cons.injEq] at h
            obtain ⟨he1, he2, he3, he4, htail⟩ := h
            obtain ⟨pre0, ab, sb, hp4⟩ := ih (index + 1) [] pre4 c post htail
            exact ⟨e1 :: e2 :: e3 :: e4 :: pre0, ab, sb, by rw [hp4]; rfl⟩
        · rw [if_neg hfull] at h
          rcases pre with _ | ⟨e1, pre1⟩
          · simp at h
          · simp only [List.cons_append, List.cons.injEq] at h
            obtain ⟨he1, htail⟩ := h
            obtain ⟨pre0, ab, sb, hp1⟩ := ih (index + 1) (pending ++ [orc index s0])
              pre1 c post htail
            exact ⟨e1 :: pre0, ab, sb, by rw [hp1]; rfl⟩

theorem sched_ckpt_dispatch_lt (orc : Nat → String → Option BackoffResult) (B SI : Nat) :
    ∀ (seqs : List String) (index : Nat) (pending : List (Option BackoffResult))
      (pre : List Event) (c : Nat) (post : List Event),
      schedLoop orc B SI seqs index pending = pre ++ Event.checkpoint c :: post →
      ∀ i s, Event.dispatch i s ∈ pre → i < c := by
  intro seqs
  induction seqs with
  | nil =>
      intro index pending pre c post h
      unfold schedLoop at h
      by_cases hp : pending.isEmpty
      · rw [if_pos hp] at h
        exact absurd h.symm (by simp)
      · rw [if_neg hp] at h
        simp only [flushEvents] at h
        rcases pre with _ | ⟨e1, _ | ⟨e2, _ | ⟨e3, pre3⟩⟩⟩
        · simp at h
        · simp at h
        · simp at h
          intro i s hm
          rw [← h.1, ← h.2.1] at hm
          simp at hm
        · simp at h
  | cons s0 rest ih =>
      intro index pending pre c post h
      unfold schedLoop at h
      by_cases hlt : index < SI
      · rw [if_pos hlt] at h
        exact ih (index + 1) pending pre c post h
      · rw [if_neg hlt] at h
        dsimp only at h
        by_cases hfull : (pending ++ [orc index s0]).length = B
        · rw [if_pos hfull] at h
          simp only [flushEvents, List.cons_append, List.nil_append] at h
          rcases pre with _ | ⟨e1, _ | ⟨e2, _ | ⟨e3, _ | ⟨e4, pre4⟩⟩⟩⟩
          · simp at h
          · simp at h
          · simp at h
          · simp at h
            intro i s hm
            rw [← h.1, ← h.2.1, ← h.2.2.1] at hm
            simp at hm
            omega
          · simp only [List.cons_append, List.cons.injEq] at h
            obtain ⟨he1, he2, he3, he4, htail⟩ := h
            have hc : index + 1 ≤ c := by
              apply sched_ckpt_ge orc B SI rest (index + 1) [] c
              rw [htail]
              simp
            intro i s hm
            simp only [List.mem_cons] at hm
            rcases hm with h1 | h2 | h3 | h4 | h5
            · rw [← he1] at h1
              injection h1 with hi hs
              omega
            · rw [← he2] at h2
              exact Event.noConfusion h2
            · rw [← he3] at h3
              exact Event.noConfusion h3
            · rw [← he4] at h4
              exact Event.noConfusion h4
            · exact ih (index + 1) [] pre4 c post htail i s h5
        · rw [if_neg hfull] at h
          rcases pre with _ | ⟨e1, pre1⟩
          · simp at h
          · simp only [List.cons_append, List.cons.injEq] at h
            obtain ⟨he1, htail⟩ := h
            have hc : index + 1 ≤ c := by
              apply sched_ckpt_ge orc B SI rest (index + 1) (pending ++ [orc index s0]) c
              rw [htail]
              simp
            intro i s hm
            simp only [List.mem_cons] at hm
            rcases hm with h1 | h2
            · rw [← he1] at h1
              injection h1 with hi hs
              omega
            · exact ih (index + 1) (pending ++ [orc index s0]) pre1 c post htail i s h2

theorem sched_ckpt_last_dispatch (orc : Nat → String → Option BackoffResult) (B SI : Nat) :
    ∀ (seqs : List String) (index : Nat) (pending : List (Option BackoffResult))
      (pre : List Event) (c : Nat) (post : List Event),
      (pending = [] ∨ SI ≤ index) →
      schedLoop orc B SI seqs index pending = pre ++ Event.checkpoint c :: post →
      (∃ s, Event.dispatch (c - 1) s ∈ pre) ∨
        (pending ≠ [] ∧ c = index ∧ ∀ i s, Event.dispatch i s ∉ pre) := by
  intro seqs
  induction seqs with
  | nil =>
      intro index pending pre c post hreach h
      unfold schedLoop at h
      by_cases hp : pending.isEmpty
      · rw [if_pos hp] at h
        exact absurd h.symm (by simp)
      · rw [if_neg hp] at h
        have hpne : pending ≠ [] := by
          intro hcon
          rw [hcon] at hp
          exact hp rfl
        simp only [flushEvents] at h
        rcases pre with _ | ⟨e1, _ | ⟨e2, _ | ⟨e3, pre3⟩⟩⟩
        · simp at h
        · simp at h
        · simp at h
          right
          refine ⟨hpne, h.2.2.1.symm, ?_⟩
          intro i s hm
          rw [← h.1, ← h.2.1] at hm
          simp at hm
        · simp at h
  | cons s0 rest ih =>
      intro index pending pre c post hreach h
      unfold schedLoop at h
      by_cases hlt : index < SI
      · rw [if_pos hlt] at h
        have hpe : pending = [] := by
          rcases hreach with h1 | h2
          · exact h1
          · omega
        rcases ih (index + 1) pending pre c post (Or.inl hpe) h with hl | ⟨hne, _, _⟩
        · exact Or.inl hl
        · exact absurd hpe hne
      · rw [if_neg hlt] at h
        dsimp only at h
        by_cases hfull : (pending ++ [orc index s0]).length = B
        · rw [if_pos hfull] at h
          simp only [flushEvents, List.cons_append, List.nil_append] at h
          rcases pre with _ | ⟨e1, _ | ⟨e2, _ | ⟨e3, _ | ⟨e4, pre4⟩⟩⟩⟩
          · simp at h
          · simp at h
          · simp at h
          · simp at h
            left
            refine ⟨s0, ?_⟩
            have hc1 : c - 1 = index := by omega
            rw [← h.1, hc1]
            simp
          · simp only [List.cons_append, List.cons.injEq] at h
            obtain ⟨he1, he2, he3, he4, htail⟩ := h
            rcases ih (index + 1) [] pre4 c post (Or.inl rfl) htail with hl | ⟨hne, _, _⟩
            · obtain ⟨s, hs⟩ := hl
              exact Or.inl ⟨s, by simp [hs]⟩
            · exact absurd rfl hne
        · rw [if_neg hfull] at h
          rcases pre with _ | ⟨e1, pre1⟩
          · simp at h
          · simp only [List.cons_append, List.cons.injEq] at h
            obtain ⟨he1, htail⟩ := h
            rcases ih (index + 1) (pending ++ [orc index s0]) pre1 c post
              (Or.inr (by omega)) htail with hl | ⟨hne, hc, hnd⟩
            · obtain ⟨s, hs⟩ := hl
              exact Or.inl ⟨s, by simp [hs]⟩
            · left
              refine ⟨s0, ?_⟩
              have hc1 : c - 1 = index := by omega
              rw [← he1, hc1]
              simp

/-- Claim C3: for every checkpoint write in a scheduler run (every window,
the final partial window included), the immediately preceding two events
are that window's audit batch write then its success batch write — so the
checkpoint is written only after both writes complete and never before
either; the checkpoint value `c` is the window's terminal GlobalIndex in
the code's exclusive convention: one past the window's last dispatched
index (`c-1` was dispatched before the checkpoint, and every dispatch
before the checkpoint is below `c`). -/
theorem claim_c3 (orc : Nat → String → Option BackoffResult) (B SI : Nat)
    (seqs : List String) (pre : List Event) (c : Nat) (post : List Event)
    (h : schedLoop orc B SI seqs 0 [] = pre ++ Event.checkpoint c :: post) :
    (∃ pre0 ab sb, pre = pre0 ++ [Event.appendAudit ab, Event.appendSuccess sb]) ∧
    (∃ s, Event.dispatch (c - 1) s ∈ pre) ∧
    (∀ i s, Event.dispatch i s ∈ pre → i < c) := by
  refine ⟨sched_ckpt_writes orc B SI seqs 0 [] pre c post h, ?_,
    sched_ckpt_dispatch_lt orc B SI seqs 0 [] pre c post h⟩
  rcases sched_ckpt_last_dispatch orc B SI seqs 0 [] pre c post (Or.inl rfl) h
    with hl | ⟨hne, _, _⟩
  · exact hl
  · exact absurd rfl hne

/-- Witness for C3: a 3-key run with window size 2 ends in a final partial
window; at its checkpoint (value 3) the preceding events are the audit
write then the success write, and index 2 = 3 - 1 was dispatched before
it. -/
theorem claim_c3_witness :
    (schedLoop (fun i _ => some ⟨⟨"k", i, Json.null⟩, none, []⟩) 2 0
        ["MA", "MB", "MC"] 0 [] =
      [Event.dispatch 0 "MA", Event.dispatch 1 "MB",
        Event.appendAudit [⟨"k", 0, Json.null⟩, ⟨"k", 1, Json.null⟩],
        Event.appendSuccess [], Event.checkpoint 2, Event.dispatch 2 "MC",
        Event.appendAudit [⟨"k", 2, Json.null⟩], Event.appendSuccess []] ++
        Event.checkpoint 3 :: []) ∧
    (∃ s, Event.dispatch 2 s ∈
      [Event.dispatch 0 "MA", Event.dispatch 1 "MB",
        Event.appendAudit [⟨"k", 0, Json.null⟩, ⟨"k", 1, Json.null⟩],
        Event.appendSuccess [], Event.checkpoint 2, Event.dispatch 2 "MC",
        Event.appendAudit [⟨"k", 2, Json.null⟩], Event.appendSuccess []]) ∧
    (∃ pre0 ab sb,
      [Event.dispatch 0 "MA", Event.dispatch 1 "MB",
        Event.appendAudit [⟨"k", 0, Json.null⟩, ⟨"k", 1, Json.null⟩],
        Event.appendSuccess [], Event.checkpoint 2, Event.dispatch 2 "MC",
        Event.appendAudit [⟨"k", 2, Json.null⟩], Event.appendSuccess []] =
        pre0 ++ [Event.appendAudit ab, Event.appendSuccess sb]) := by
  have htr : schedLoop (fun i _ => some ⟨⟨"k", i, Json.null⟩, none, []⟩) 2 0
      ["MA", "MB", "MC"] 0 [] =
      [Event.dispatch 0 "MA", Event.dispatch 1 "MB",
        Event.appendAudit [⟨"k", 0, Json.null⟩, ⟨"k", 1, Json.null⟩],
        Event.appendSuccess [], Event.checkpoint 2, Event.dispatch 2 "MC",
        Event.appendAudit [⟨"k", 2, Json.null⟩], Event.appendSuccess []] ++
        Event.checkpoint 3 :: [] := rfl
  have h := claim_c3 (fun i _ => some ⟨⟨"k", i, Json.null⟩, none, []⟩) 2 0
    ["MA", "MB", "MC"] _ 3 [] htr
  exact ⟨htr, h.2.1, h.1⟩

/-! ## Theorems: checkpoint durability invariant (C2) -/

theorem sched_ckpt_coverage (orc : Nat → String → Option BackoffResult) (B SI : Nat)
    (H1 : ∀ i s, ∃ r, orc i s = some r)
    (H2 : ∀ i s r, orc i s = some r → r.allIdsEntry.index = i) :
    ∀ (seqs : List String) (index : Nat) (pending : List (Option BackoffResult)),
      pending.length ≤ index →
      (pending = [] ∨ SI ≤ index - pending.length) →
      (∀ k, k < pending.length → ∃ r, pending[k]? = some (some r) ∧
        r.allIdsEntry.index = index - pending.length + k) →
      ∀ (pre : List Event) (c : Nat) (post : List Event),
        schedLoop orc B SI seqs index pending = pre ++ Event.checkpoint c :: post →
        ∀ j, max SI (index - pending.length) ≤ j → j < c →
          ∃ ab e, Event.appendAudit ab ∈ pre ∧ e ∈ ab ∧ e.index = j := by
  intro seqs
  induction seqs with
  | nil =>
      intro index pending hlen hreach hp pre c post h j hj1 hj2
      unfold schedLoop at h
      by_cases hpe : pending.isEmpty
      · rw [if_pos hpe] at h
        exact absurd h.symm (by simp)
      · rw [if_neg hpe] at h
        simp only [flushEvents] at h
        rcases pre with _ | ⟨e1, _ | ⟨e2, _ | ⟨e3, pre3⟩⟩⟩
        · simp at h
        · simp at h
        · simp at h
          obtain ⟨hA, hS, hc, hpost⟩ := h
          subst hc
          have hk : j - (index - pending.length) < pending.length := by omega
          obtain ⟨r, hr, hri⟩ := hp (j - (index - pending.length)) hk
          refine ⟨(pending.filterMap id).map (fun r => r.allIdsEntry),
            r.allIdsEntry, ?_, ?_, ?_⟩
          · rw [hA]
            simp
          · apply List.mem_map_of_mem
            apply List.mem_filterMap.mpr
            exact ⟨some r, List.getElem?_mem hr, rfl⟩
          · rw [hri]
            omega
        · simp at h
  | cons s0 rest ih =>
      intro index pending hlen hreach hp pre c post h j hj1 hj2
      unfold schedLoop at h
      by_cases hlt : index < SI
      · rw [if_pos hlt] at h
        have hpe : pending = [] := by
          rcases hreach with h1 | h2
          · exact h1
          · have : pending.length = 0 := by omega
            exact List.eq_nil_of_length_eq_zero this
        subst hpe
        refine ih (index + 1) [] (by simp) (Or.inl rfl)
          (by intro k hk; simp at hk) pre c post h j ?_ hj2
        simp only [List.length_nil] at hj1 ⊢
        omega
      · rw [if_neg hlt] at h
        dsimp only at h
        obtain ⟨r0, hr0⟩ := H1 index s0
        by_cases hfull : (pending ++ [orc index s0]).length = B
        · rw [if_pos hfull] at h
          simp only [flushEvents, List.cons_append, List.nil_append] at h
          rcases pre with _ | ⟨e1, _ | ⟨e2, _ | ⟨e3, _ | ⟨e4, pre4⟩⟩⟩⟩
          · simp at h
          · simp at h
          · simp at h
          · simp only [List.cons_append, List.nil_append, List.cons.injEq,
              Event.checkpoint.injEq] at h
            obtain ⟨hd, hA, hS, hc, hpost⟩ := h
            subst hc
            refine ⟨((pending ++ [orc index s0]).filterMap id).map
              (fun r => r.allIdsEntry), ?_⟩
            by_cases hji : j = index
            · refine ⟨r0.allIdsEntry, ?_, ?_, ?_⟩
              · rw [hA]
                simp
              · apply List.mem_map_of_mem
                apply List.mem_filterMap.mpr
                refine ⟨some r0, ?_, rfl⟩
                apply List.mem_append.mpr
                right
                simp [hr0]
              · rw [H2 index s0 r0 hr0, hji]
            · have hk : j - (index - pending.length) < pending.length := by omega
              obtain ⟨r, hr, hri⟩ := hp (j - (index - pending.length)) hk
              refine ⟨r.allIdsEntry, ?_, ?_, ?_⟩
              · rw [hA]
                simp
              · apply List.mem_map_of_mem
                apply List.mem_filterMap.mpr
                refine ⟨some r, ?_, rfl⟩
                apply List.mem_append.mpr
                left
                exact List.getElem?_mem hr
              · rw [hri]
                omega
          · simp only [List.cons_append, List.cons.injEq] at h
            obtain ⟨hd, hA, hS, hC, htail⟩ := h
            by_cases hji : j < index + 1
            · refine ⟨((pending ++ [orc index s0]).filterMap id).map
                (fun r => r.allIdsEntry), ?_⟩
              by_cases hje : j = index
              · refine ⟨r0.allIdsEntry, ?_, ?_, ?_⟩
                · rw [hA]
                  simp
                · apply List.mem_map_of_mem
                  apply List.mem_filterMap.mpr
                  refine ⟨some r0, ?_, rfl⟩
                  apply List.mem_append.mpr
                  right
                  simp [hr0]
                · rw [H2 index s0 r0 hr0, hje]
              · have hk : j - (index - pending.length) < pending.length := by omega
                obtain ⟨r, hr, hri⟩ := hp (j - (index - pending.length)) hk
                refine ⟨r.allIdsEntry, ?_, ?_, ?_⟩
                · rw [hA]
                  simp
                · apply List.mem_map_of_mem
                  apply List.mem_filterMap.mpr
                  refine ⟨some r, ?_, rfl⟩
                  apply List.mem_append.mpr
                  left
                  exact List.getElem?_mem hr
                · rw [hri]
                  omega
            · have hrec := ih (index + 1) [] (by simp) (Or.inl rfl)
                (by intro k hk; simp at hk) pre4 c post htail j
                (by simp only [List.length_nil]; omega) hj2
              obtain ⟨ab, e, hab, he, hei⟩ := hrec
              exact ⟨ab, e, by simp [hab], he, hei⟩
        · rw [if_neg hfull] at h
          rcases pre with _ | ⟨e1, pre1⟩
          · simp at h
          · simp only [List.cons_append, List.cons.injEq] at h
            obtain ⟨hd, htail⟩ := h
            have hp' : ∀ k, k < (pending ++ [orc index s0]).length →
                ∃ r, (pending ++ [orc index s0])[k]? = some (some r) ∧
                  r.allIdsEntry.index =
                    index + 1 - (pending ++ [orc index s0]).length + k := by
              intro k hk
              simp only [List.length_append, List.length_singleton] at hk ⊢
              by_cases hkp : k < pending.length
              · obtain ⟨r, hr, hri⟩ := hp k hkp
                refine ⟨r, ?_, ?_⟩
                · rw [List.getElem?_append, if_pos hkp]
                  exact hr
                · rw [hri]
                  omega
              · have hke : k = pending.length := by omega
                refine ⟨r0, ?_, ?_⟩
                · rw [List.getElem?_append, if_neg (by omega)]
                  rw [hke]
                  simp [hr0]
                · rw [H2 index s0 r0 hr0]
                  omega
            have hSIa : SI ≤ index - pending.length := by
              rcases hreach with h1 | h2
              · rw [h1]
                simp
                omega
              · exact h2
            have hrec := ih (index + 1) (pending ++ [orc index s0])
              (by simp; omega) (Or.inr (by simp; omega)) hp' pre1 c post htail j
              (by simp only [List.length_append, List.length_singleton] at hj1 ⊢; omega) hj2
            obtain ⟨ab, e, hab, he, hei⟩ := hrec
            exact ⟨ab, e, by simp [hab], he, hei⟩

/-- Counterexample to claim C2 as stated: in a 2-key run with window size
2 and a dispatcher that always fulfills, the first (and only) checkpoint
persists `lastIndex = 2` while the highest GlobalIndex among durably
flushed AuditRecords is 1 — the persisted value exceeds it by one, so the
checker `c2Check` (the claim's words) rejects the trace. -/
theorem claim_c2_counterexample :
    c2Check (schedLoop (fun i _ => some ⟨⟨"k", i, Json.null⟩, none, []⟩) 2 0
      ["MA", "MB"] 0 []) = false := rfl

/-- Claim C2 (amended): the persisted `lastIndex` never exceeds one plus
the highest GlobalIndex whose AuditRecord is durably flushed —
equivalently, when a checkpoint event with value `c` occurs, every
GlobalIndex `j` with `startIndex ≤ j < c` already has an audit record
with index `j` inside an audit batch written earlier in the trace
(hypotheses: the dispatcher always fulfills and records the submitted
index, which `requestForKeyWithBackoff` guarantees). -/
theorem claim_c2_amended (orc : Nat → String → Option BackoffResult) (B SI : Nat)
    (seqs : List String) (pre : List Event) (c : Nat) (post : List Event)
    (H1 : ∀ i s, ∃ r, orc i s = some r)
    (H2 : ∀ i s r, orc i s = some r → r.allIdsEntry.index = i)
    (h : schedLoop orc B SI seqs 0 [] = pre ++ Event.checkpoint c :: post) :
    ∀ j, SI ≤ j → j < c →
      ∃ ab e, Event.appendAudit ab ∈ pre ∧ e ∈ ab ∧ e.index = j := by
  intro j hj1 hj2
  refine sched_ckpt_coverage orc B SI H1 H2 seqs 0 [] (by simp) (Or.inl rfl)
    (by intro k hk; simp at hk) pre c post h j ?_ hj2
  simp only [List.length_nil]
  omega

/-- Witness for C2 (amended): in the concrete 2-key run, at the
checkpoint with value 2, index 1 = 2 - 1 is already covered by the audit
batch written before it. -/
theorem claim_c2_amended_witness :
    (schedLoop (fun i _ => some ⟨⟨"k", i, Json.null⟩, none, []⟩) 2 0
        ["MA", "MB"] 0 [] =
      [Event.dispatch 0 "MA", Event.dispatch 1 "MB",
        Event.appendAudit [⟨"k", 0, Json.null⟩, ⟨"k", 1, Json.null⟩],
        Event.appendSuccess []] ++ Event.checkpoint 2 :: []) ∧
    (∃ ab e, Event.appendAudit ab ∈
        [Event.dispatch 0 "MA", Event.dispatch 1 "MB",
          Event.appendAudit [⟨"k", 0, Json.null⟩, ⟨"k", 1, Json.null⟩],
          Event.appendSuccess []] ∧ e ∈ ab ∧ e.index = 1) := by
  refine ⟨rfl, ?_⟩
  refine claim_c2_amended (fun i _ => some ⟨⟨"k", i, Json.null⟩, none, []⟩) 2 0
    ["MA", "MB"] _ 2 [] (fun i s => ⟨_, rfl⟩) ?_ rfl 1 (by omega) (by omega)
  intro i s r hr
  injection hr with h1
  rw [← h1]
